import Mathlib

/-!
# HTML-Parser: the tree builder of `src/src/parser.cpp` and the create command

A shallow embedding of `dom::Parser` (`parse`, `getTagName`, `getAttributes`), of the
`dom::Node` objects it allocates, and of `dom::Interpreter::resolveCmd`
(`src/src/interpreter.cpp`).

* A `std::string` is the list of its characters (`Str`).
* The nodes allocated with `new Node(..)` live in a heap, a list of `Node` records; a
  `Node*` is an index into the heap, and a nullable pointer is an `Option Nat`.
  `new Node` appends a record to the heap.
* `std::exit(1)` after a logged syntax error, an uncaught `std::out_of_range` and the
  dereference of a null pointer all end the run; they are the `ParseError` outcomes.
* Positions inside strings are natural numbers; the `int` that holds the result of
  `find_first_of` is an `Int` (`npos` converts to `-1`), and a negative value that is
  used as a `size_t` wraps around `2 ^ 64`. Strings are taken to be shorter than `2 ^ 31`
  characters, so that the conversion of a found position to `int` is exact.
* `util::tokenizeHTML` and `util::tokenize` are not among the sources: `parse` is a
  function of the token sequence, and the attribute splitter is a parameter `tokenize`.
* `Tree::match` and `Tree::createElement` are not among the sources either: `resolveCmd`
  takes them as parameters (`Collaborators`); versions modelled from the spec serve to run
  examples.
-/

namespace dom

/-- A `std::string`: the sequence of its characters. -/
abbrev Str := List Char

/-- A `std::map<std::string, std::string>`: association list with distinct keys,
the most recently inserted key first. -/
abbrev AttrMap := List (Str × Str)

/-- The ways a run of the parser ends without returning a tree. -/
inductive ParseError where
  /-- `util::logSyntaxError("Stray tag: </" + tagName + ">"); std::exit(1);` -/
  | strayTag (tagName : Str)
  /-- `util::logSyntaxError("Unpaired tag(s): ")`, the stack printed top first, `std::exit(1)`. -/
  | unpairedTags (stack : List Str)
  /-- An uncaught `std::out_of_range`, thrown by `std::string::substr`. -/
  | outOfRange
  /-- A member access through a null (or dangling) `Node*`. -/
  | nullPointer
  deriving DecidableEq

/-- The fields of `class Node` (`include/node.h`, lines 23-27). -/
structure Node where
  type : Str
  innerHTML : Str
  parent : Option Nat
  children : List Nat
  attributes : AttrMap
  deriving DecidableEq

/-- The memory that holds the `Node` objects; a `Node*` is an index into it. -/
abbrev Heap := List Node

/-- Class `Tree` (`include/tree.h`): the root pointer, together with the memory it points into. -/
structure Tree where
  heap : Heap
  root : Nat
  deriving DecidableEq

/-! ## std::string primitives -/

/-- The `size_t` value of an integer expression: a value that is not negative is a
position or a length inside a string and is kept, a negative one wraps around `2 ^ 64`. -/
def toSizeT (i : Int) : Nat := if 0 ≤ i then i.toNat else (i + 2 ^ 64).toNat

/-- Indexing `s[i]`: for `i = s.size()` the standard returns the null character. -/
def charAt (s : Str) (i : Nat) : Char := s.getD i (Char.ofNat 0)

/-- `std::string::substr(pos, n)`: throws `std::out_of_range` when `pos > size()`, and
otherwise returns at most `n` characters from position `pos` on. -/
def substr (s : Str) (pos n : Nat) : Except ParseError Str :=
  if s.length < pos then .error .outOfRange else .ok ((s.drop pos).take n)

/-- `std::isspace` in the C locale: space, `\t`, `\n`, `\v`, `\f`, `\r`. -/
def isspace (c : Char) : Bool :=
  c.toNat == 32 || (9 ≤ c.toNat && c.toNat ≤ 13)

/-- `std::string::find_first_of(c)` stored in an `int`: the first position of `c`, or
`-1` (the conversion of `npos`) when `c` does not occur. -/
def findFirstOf (s : Str) (c : Char) : Int :=
  if c ∈ s then (s.indexOf c : Int) else -1

/-- Modelled from the spec: `util::endsWith(token, "-->")` is declared in `util.h`, which is
not among the sources; the spec speaks of "a token ending in `-->`". -/
def endsWith (s suffix : Str) : Bool := suffix.isSuffixOf s

/-! ## The map of attributes -/

/-- The assignment `(*pairs)[k] = v` on a `std::map`: inserts the key, or overwrites its value. -/
def mapAssign (m : AttrMap) (k v : Str) : AttrMap :=
  (k, v) :: m.filter (fun p => p.1 != k)

/-- Lookup of a key in a `std::map`. -/
def mapFind (m : AttrMap) (k : Str) : Option Str := m.lookup k

/-! ## Parser::getTagName and Parser::getAttributes -/

/-- The loop `while (curr < tag.length() && !std::isspace(tag[curr]) && tag[curr] != '>') curr++`
of `getTagName`, run over the characters from position `curr` on; returns the final `curr`. -/
def scanName : Str → Nat → Nat
  | [], curr => curr
  | c :: rest, curr => if !isspace c && c != '>' then scanName rest (curr + 1) else curr

/-- `Parser::getTagName` (`parser.cpp`, lines 107-115). -/
def getTagName (tag : Str) : Except ParseError Str := do
  let head ← substr tag 0 2
  let start := if head = "</".toList then 2 else 1
  let curr := scanName (tag.drop start) start
  substr tag start (curr - start)

/-- The body of the loop of `getAttributes` (lines 128-130), for one token of the splitter. -/
def decodePair (pairs : AttrMap) (token : Str) : Except ParseError AttrMap := do
  let equalsLoc := findFirstOf token '='
  let value ← substr token (toSizeT (equalsLoc + 2)) (toSizeT ((token.length : Int) - equalsLoc - 3))
  let key ← substr token 0 (toSizeT equalsLoc)
  pure (mapAssign pairs key value)

/-- The loop `for (int i = 1; i < tokens.size(); i++)` of `getAttributes`, over the tokens
that are left. -/
def decodePairs : List Str → AttrMap → Except ParseError AttrMap
  | [], pairs => .ok pairs
  | token :: rest, pairs =>
    match decodePair pairs token with
    | .error e => .error e
    | .ok pairs1 => decodePairs rest pairs1

/-- `Parser::getAttributes` (`parser.cpp`, lines 117-134). The parameter `tokenize` is
`fun s => util::tokenize(s, 32, true)`, the quote-aware splitter on spaces, which is not
among the sources. -/
def getAttributes (tokenize : Str → List Str) (tag : Str) : Except ParseError AttrMap := do
  let truncTag ← substr tag 1 (toSizeT ((tag.length : Int) - 2))
  let tokens := tokenize truncTag
  decodePairs (tokens.drop 1) []

/-- Modelled from the spec: `util::tokenize(s, 32, true)` is declared in `util.h`, which is
not among the sources. The spec asks for a splitter on spaces that does not split inside
double quotes; this one returns the non-empty pieces. It is used only to run examples: the
theorems hold for every splitter. The arguments are the characters left, whether a quote
is open, and the piece under construction. -/
def splitQuotedAux : Str → Bool → Str → List Str
  | [], _, cur => if cur = [] then [] else [cur]
  | c :: rest, inQuotes, cur =>
    if c = Char.ofNat 34 then splitQuotedAux rest (!inQuotes) (cur ++ [c])
    else if c = ' ' ∧ inQuotes = false then
      (if cur = [] then [] else [cur]) ++ splitQuotedAux rest inQuotes []
    else splitQuotedAux rest inQuotes (cur ++ [c])

/-- Modelled from the spec: the quote-aware splitter on spaces (see `splitQuotedAux`). -/
def splitQuoted (s : Str) : List Str := splitQuotedAux s false []

/-! ## Node operations -/

/-- Modelled from the spec: the constructor `Node(const std::string& type)` is defined in
`node.cpp`, which is not among the sources. A fresh node has the given tag, empty inner
text, no parent, no children and no attributes. -/
def Node.new (type : Str) : Node :=
  { type := type, innerHTML := [], parent := none, children := [], attributes := [] }

/-- Dereference of a `Node*`. -/
def deref (heap : Heap) (p : Option Nat) : Except ParseError Node :=
  match p with
  | none => .error .nullPointer
  | some i =>
    match heap[i]? with
    | none => .error .nullPointer
    | some n => .ok n

/-- Store through a `Node*`. -/
def store (heap : Heap) (p : Option Nat) (n : Node) : Except ParseError Heap :=
  match p with
  | none => .error .nullPointer
  | some i => if i < heap.length then .ok (heap.set i n) else .error .nullPointer

/-- The expression `new Node(type)`: the enlarged heap and the pointer to the new object. -/
def allocNode (heap : Heap) (type : Str) : Heap × Nat :=
  (heap ++ [Node.new type], heap.length)

/-- Modelled from the spec: `Node::appendChild` is declared in `node.h` (line 44) and defined
in `node.cpp`, which is not among the sources. `self->appendChild(child)` appends `child` as
the last element of the children of `self` and makes `self` the parent of `child`. -/
def appendChild (heap : Heap) (self : Option Nat) (child : Nat) : Except ParseError Heap := do
  let p ← deref heap self
  let heap1 ← store heap self { p with children := p.children ++ [child] }
  let c ← deref heap1 (some child)
  store heap1 (some child) { c with parent := self }

/-- Modelled from the spec: `Node::getParent` (declared in `node.h`, line 40) returns the
`parent` field. -/
def getParent (heap : Heap) (p : Option Nat) : Except ParseError (Option Nat) := do
  let n ← deref heap p
  pure n.parent

/-! ## Parser::parse -/

/-- The local variables of `Parser::parse` (lines 21-24) and the heap of nodes. -/
structure Builder where
  heap : Heap
  stack : List Str
  root : Nat
  node : Option Nat
  commentCompleted : Bool
  deriving DecidableEq

/-- The state at the head of the loop, before the first token (lines 21-24). -/
def Builder.init : Builder :=
  { heap := [Node.new "document".toList], stack := [], root := 0, node := some 0,
    commentCompleted := true }

/-- The closing tag branch (lines 35-47). -/
def closeTag (b : Builder) (token : Str) : Except ParseError Builder := do
  let tagName ← getTagName token
  if b.stack.isEmpty || b.stack.head? != some tagName then
    .error (.strayTag tagName)
  else
    let parent ← getParent b.heap b.node
    pure { b with node := parent, stack := b.stack.tail }

/-- The branch of a token that begins with `<!` (lines 53-60). -/
def commentTag (b : Builder) (token : Str) : Except ParseError Builder := do
  let dashes ← substr token 2 2
  if dashes = "--".toList then
    let b1 := { b with commentCompleted := false }
    if endsWith token "-->".toList then
      pure { b1 with commentCompleted := true }
    else
      pure b1
  else
    pure b

/-- The branch of any other tag (lines 66-84). -/
def openTag (tokenize : Str → List Str) (b : Builder) (token : Str) :
    Except ParseError Builder := do
  if b.commentCompleted then
    let tagName ← getTagName token
    let (heap1, newNode) := allocNode b.heap tagName
    let heap2 ← appendChild heap1 b.node newNode
    let attrs ← getAttributes tokenize token
    let n ← deref heap2 (some newNode)
    let heap3 ← store heap2 (some newNode) { n with attributes := attrs }
    pure { b with heap := heap3, stack := tagName :: b.stack, node := some newNode }
  else if endsWith token "-->".toList then
    pure { b with commentCompleted := true }
  else
    pure b

/-- The text branch (lines 88-89). -/
def textToken (b : Builder) (token : Str) : Except ParseError Builder := do
  if b.commentCompleted then
    let n ← deref b.heap b.node
    let heap1 ← store b.heap b.node { n with innerHTML := n.innerHTML ++ token }
    pure { b with heap := heap1 }
  else
    pure b

/-- One iteration of the loop of `Parser::parse` (lines 27-90). -/
def step (tokenize : Str → List Str) (b : Builder) (token : Str) : Except ParseError Builder :=
  if charAt token 0 = '<' then
    if charAt token 1 = '/' then closeTag b token
    else if charAt token 1 = '!' then commentTag b token
    else openTag tokenize b token
  else textToken b token

/-- The loop `for (std::string token : tokens)` (lines 27-90). -/
def run (tokenize : Str → List Str) : List Str → Builder → Except ParseError Builder
  | [], b => .ok b
  | token :: rest, b =>
    match step tokenize b token with
    | .error e => .error e
    | .ok b1 => run tokenize rest b1

/-- The end of `Parser::parse` (lines 92-104). -/
def finish (b : Builder) : Except ParseError Tree :=
  if b.stack.isEmpty then .ok { heap := b.heap, root := b.root }
  else .error (.unpairedTags b.stack)

/-- `Parser::parse` (`parser.cpp`, lines 19-105), as a function of the token sequence that
`util::tokenizeHTML(src)` returns. -/
def parse (tokenize : Str → List Str) (tokens : List Str) : Except ParseError Tree :=
  match run tokenize tokens Builder.init with
  | .error e => .error e
  | .ok b => finish b

/-! ## Classes of tokens, as the branches of the loop tell them apart -/

/-- A text token: the test `token[0] == '<'` fails. -/
def isText (token : Str) : Bool := charAt token 0 != '<'

/-- A closing tag token: `token[0] == '<'` and `token[1] == '/'`. -/
def isClosingTag (token : Str) : Bool := charAt token 0 == '<' && charAt token 1 == '/'

/-- A token that begins with `<!`: a comment or a declaration. -/
def isBangTag (token : Str) : Bool :=
  charAt token 0 == '<' && charAt token 1 != '/' && charAt token 1 == '!'

/-- An opening tag token: a tag token that is neither a closing tag nor begins with `<!`. -/
def isOpeningTag (token : Str) : Bool :=
  charAt token 0 == '<' && charAt token 1 != '/' && charAt token 1 != '!'

/-- The pre-order sequence of the tags of the nodes reachable from node `i` through the
`children` vectors: the node, then the subtrees of its children from left to right. The
first argument bounds the depth of the descent. -/
def preorder (heap : Heap) : Nat → Nat → List Str
  | 0, _ => []
  | fuel + 1, i =>
    match heap[i]? with
    | none => []
    | some n => n.type :: n.children.flatMap (fun c => preorder heap fuel c)

/-- The pre-order sequence of the tags of a tree; a tree has at most as many levels as
the heap has nodes. -/
def Tree.tags (t : Tree) : List Str := preorder t.heap t.heap.length t.root

/-- The inner text of the node at `i` (empty when there is no such node). -/
def innerTextAt (heap : Heap) (i : Nat) : Str :=
  match heap[i]? with
  | none => []
  | some n => n.innerHTML

/-- The text that the run of `tokens` from state `b` appends while node `i` is the cursor:
the concatenation, in order, of the text tokens processed outside a comment with the
cursor at `i`. -/
def textsAt (tokenize : Str → List Str) (i : Nat) : List Str → Builder → Str
  | [], _ => []
  | token :: rest, b =>
    (if isText token && b.commentCompleted && b.node == some i then token else []) ++
      (match step tokenize b token with
       | .error _ => []
       | .ok b1 => textsAt tokenize i rest b1)

/-! ## States, tags and predicates used in the statements -/

/-- The state after an opening tag named `name` with attributes `attrs`, processed with
the cursor at node `c`, whose record is `n`. -/
def openedState (b : Builder) (name : Str) (attrs : AttrMap) (c : Nat) (n : Node) : Builder :=
  { heap := b.heap.set c { n with children := n.children ++ [b.heap.length] } ++
      [{ type := name, innerHTML := [], parent := some c, children := [],
         attributes := attrs }],
    stack := name :: b.stack, root := b.root, node := some b.heap.length,
    commentCompleted := b.commentCompleted }

/-- The state after the single token `<a>`. -/
def afterOpenA : Builder :=
  { heap := [{ Node.new "document".toList with children := [1] },
             { Node.new "a".toList with parent := some 0 }],
    stack := ["a".toList], root := 0, node := some 1, commentCompleted := true }

/-- The state after the tokens `<div>`, `<!-- <span>`, `ignored`: a comment is open. -/
def insideComment : Builder :=
  { heap := [{ Node.new "document".toList with children := [1] },
             { Node.new "div".toList with parent := some 0 }],
    stack := ["div".toList], root := 0, node := some 1, commentCompleted := false }

/-- The state after the tokens `<a>`, `<!--`: a comment is open. -/
def insideCommentA : Builder :=
  { heap := [{ Node.new "document".toList with children := [1] },
             { Node.new "a".toList with parent := some 0 }],
    stack := ["a".toList], root := 0, node := some 1, commentCompleted := false }

/-- The double quote character. -/
def dquote : Char := Char.ofNat 34

/-- The attribute token `key="value"`. -/
def attrToken (key value : Str) : Str := key ++ ('=' :: dquote :: (value ++ [dquote]))

/-- The text between `<` and `>` of the opening tag `<name k1="v1" ... kn="vn">`. -/
def tagBody (name : Str) (kvs : List (Str × Str)) : Str :=
  name ++ kvs.flatMap (fun p => ' ' :: attrToken p.1 p.2)

/-- The opening tag `<name k1="v1" ... kn="vn">`. -/
def renderTag (name : Str) (kvs : List (Str × Str)) : Str :=
  '<' :: tagBody name kvs ++ ['>']

/-- The value that comes with the last occurrence of `key` in the attribute list. -/
def lastValue (kvs : List (Str × Str)) (key : Str) : Option Str :=
  kvs.reverse.lookup key

/-- Token sequences made of text tokens, opening tags and closing tags in which every
opening tag has a matching, correctly nested closing tag: the empty sequence, a text token
before a balanced sequence, and an opening tag, a balanced body, a closing tag with the
same name, then a balanced sequence. -/
inductive Balanced : List Str → Prop where
  | nil : Balanced []
  | text (t : Str) (rest : List Str) : isText t = true → Balanced rest → Balanced (t :: rest)
  | element (o c : Str) (body rest : List Str) : isOpeningTag o = true →
      isClosingTag c = true → getTagName o = getTagName c → Balanced body → Balanced rest →
      Balanced (o :: (body ++ c :: rest))

/-- Every node with an index from `lo` up to `hi` exists, and its children have larger
indices, below `hi`. -/
def ClosedRange (heap : Heap) (lo hi : Nat) : Prop :=
  ∀ i, lo ≤ i → i < hi → ∃ n, heap[i]? = some n ∧ ∀ k ∈ n.children, i < k ∧ k < hi

/-- The text between the first and the last character of a tag, as `getAttributes` cuts
it out with `tag.substr(1, tag.length() - 2)` (for a tag of at least one character). -/
def truncTag (tag : Str) : Str := (tag.drop 1).take (toSizeT ((tag.length : Int) - 2))

/-- The attribute tokens on which the decode of `getAttributes` runs out of range: the
empty token, and a token whose first `=` is its last character. -/
def runsOut (token : Str) : Bool := token.isEmpty || token.indexOf '=' + 1 == token.length

/-- The tags on the way up from node `i`: the tag of `i`, of its parent, and so on, up to
but excluding the node that has no parent. The first argument bounds the length of the
way up. -/
def ancestorTags (heap : Heap) : Nat → Nat → List Str
  | 0, _ => []
  | fuel + 1, i =>
    match heap[i]? with
    | none => []
    | some n =>
      match n.parent with
      | none => []
      | some p => n.type :: ancestorTags heap fuel p

/-- The links of the heap of a builder state are those of a tree under construction:
node 0 is the root, tagged `document` and without a parent; the cursor is a node, and the
stack holds the tags on the way up from it; every other node has a parent, allocated
before it, whose children hold it exactly once; and every child of a node names that node
as its parent. -/
structure WellLinked (b : Builder) : Prop where
  root_eq : b.root = 0
  root_node : ∃ r, b.heap[0]? = some r ∧ r.type = "document".toList ∧ r.parent = none
  cursor : ∃ c, b.node = some c ∧ c < b.heap.length ∧
    b.stack = ancestorTags b.heap b.heap.length c
  parent_link : ∀ (i : Nat) (n : Node), b.heap[i]? = some n → i ≠ 0 →
    ∃ (p : Nat) (pn : Node), n.parent = some p ∧ p < i ∧ b.heap[p]? = some pn ∧
      pn.children.count i = 1
  child_link : ∀ (p : Nat) (pn : Node) (k : Nat), b.heap[p]? = some pn → k ∈ pn.children →
    ∃ kn : Node, b.heap[k]? = some kn ∧ kn.parent = some p

/-! ## Interpreter::resolveCmd -/

/-- The parts of the repository that `Interpreter::resolveCmd` calls and that are not
among the sources. -/
structure Collaborators where
  /-- The call `util::tokenize(cmd)`: the words of a command line. -/
  tokenize : Str → List Str
  /-- The call `tree->match(identifier)` (`tree.h`, line 15): the node that the selector
  resolves to, or null. It reads the tree and does not change it. -/
  matchSelector : Tree → Str → Option Nat
  /-- The call `tree->createElement(elementSpec)` (`tree.h`, line 17): the record of the
  node that it allocates. It does not change the tree. -/
  createElement : Tree → Str → Node

/-- The call `v.at(i)` on a `std::vector`: throws `std::out_of_range` past the end. -/
def vectorAt (v : List Str) (i : Nat) : Except ParseError Str :=
  match v[i]? with
  | none => .error .outOfRange
  | some x => .ok x

/-- The calls `s.front()` and `s.back()`, compared with the double quote: both characters
of a non-empty string (on the empty string, where the calls are undefined, the test is
taken to fail). -/
def isQuoted (s : Str) : Bool :=
  s.head? == some (Char.ofNat 34) && s.getLast? == some (Char.ofNat 34)

/-- The parent selector of a `create ... within` command (`interpreter.cpp`, lines 58-63):
the fourth word, without its first and last character when both are double quotes. -/
def parentSelectorOf (word : Str) : Except ParseError Str :=
  if isQuoted word then substr word 1 (toSizeT ((word.length : Int) - 2)) else .ok word

/-- The `create <element-spec> within <parent-selector>` branch of `resolveCmd`
(`interpreter.cpp`, lines 52-74); `heap1` is the heap with the new node at `newNode`. -/
def createWithin (env : Collaborators) (tree : Tree) (cmds : List Str) (heap1 : Heap)
    (newNode : Nat) : Except ParseError Tree := do
  if cmds.length < 4 then
    -- the usage message; the new node is neither attached nor deleted
    pure { tree with heap := heap1 }
  else
    let word ← vectorAt cmds 3
    let parentSelector ← parentSelectorOf word
    match env.matchSelector tree parentSelector with
    | none =>
      -- "Parent not found", `delete newNode`
      pure tree
    | some parent =>
      let heap2 ← appendChild heap1 (some parent) newNode
      pure { tree with heap := heap2 }

/-- The `create <element-spec>` branch without `within` (`interpreter.cpp`, lines 78-100). -/
def createDefault (env : Collaborators) (tree : Tree) (heap1 : Heap) (newNode : Nat) :
    Except ParseError Tree := do
  match env.matchSelector tree "@document".toList with
  | none => pure tree
  | some documentElement =>
    let doc ← deref heap1 (some documentElement)
    if doc.children.isEmpty then
      -- "Document element not found", `delete newNode`
      pure tree
    else
      let bodyElement ←
        match env.matchSelector tree "@body".toList with
        | some body => pure body
        | none =>
          match doc.children[0]? with
          | some first => pure first
          | none => .error .outOfRange
      let heap2 ← appendChild heap1 (some bodyElement) newNode
      pure { tree with heap := heap2 }

/-- `Interpreter::resolveCmd` (`interpreter.cpp`, lines 18-103), as the tree it leaves.
What the commands print or write to a file is not part of the state. -/
def resolveCmd (env : Collaborators) (tree : Tree) (cmd : Str) : Except ParseError Tree := do
  let cmds := env.tokenize cmd
  let cmd0 ← vectorAt cmds 0
  if cmd0 = "print".toList then pure tree
  else if cmd0 = "save".toList then pure tree
  else if cmd0 = "create".toList then
    if cmds.length < 2 then pure tree
    else
      let elementSpec ← vectorAt cmds 1
      let (heap1, newNode) := (tree.heap ++ [env.createElement tree elementSpec], tree.heap.length)
      if 2 < cmds.length && cmds[2]? == some "within".toList then
        createWithin env tree cmds heap1 newNode
      else
        createDefault env tree heap1 newNode
  else pure tree

/-- The value of `parentSelectorOf`: the word after the removal of a pair of enclosing
double quotes. -/
def stripQuotes (word : Str) : Str :=
  if isQuoted word then (word.drop 1).take (toSizeT ((word.length : Int) - 2)) else word

/-- The tree after `parent->appendChild(newNode)` for a freshly allocated record `m`: the
record `pn` of the parent `p` gets the new index as its last child, and the new record,
with `p` as its parent, is the last of the heap. -/
def Tree.attach (tree : Tree) (p : Nat) (pn m : Node) : Tree :=
  { tree with
    heap := tree.heap.set p { pn with children := pn.children ++ [tree.heap.length] } ++
      [{ m with parent := some p }] }

/-- Struct `Selector` (`include/node.h`, lines 11-18). -/
structure Selector where
  type : Str
  id : Str
  classNames : List Str
  deriving DecidableEq

/-- Modelled from the spec: the pieces of a selector string, cut before every `#` and
every `.` (section 4.4); the second argument is the piece under construction. -/
def selectorSegments : Str → Str → List Str
  | [], cur => [cur]
  | c :: rest, cur =>
    if c = '#' ∨ c = '.' then cur :: selectorSegments rest [c]
    else selectorSegments rest (cur ++ [c])

/-- Modelled from the spec: `Tree::tokenizeSelector` is declared in `tree.h` (line 29) and
defined in `tree.cpp`, which is not among the sources. Section 4.4: the leading run before
any `#` or `.` is the type, a `#` run is the id (the first one is kept), and every `.` run
is a class. -/
def tokenizeSelector (s : Str) : Selector :=
  let segs := selectorSegments s []
  { type := segs.headD [],
    id := ((segs.drop 1).find? (fun seg => seg.head? == some '#')).elim [] (fun seg => seg.drop 1),
    classNames := ((segs.drop 1).filter (fun seg => seg.head? == some '.')).map
      (fun seg => seg.drop 1) }

/-- Modelled from the spec: the whitespace-separated pieces of a `class` attribute; the
second argument is the piece under construction. -/
def splitWhitespace : Str → Str → List Str
  | [], cur => if cur = [] then [] else [cur]
  | c :: rest, cur =>
    if isspace c then (if cur = [] then [] else [cur]) ++ splitWhitespace rest []
    else splitWhitespace rest (cur ++ [c])

/-- Modelled from the spec: `Node::matches` is declared in `node.h` (line 54) and defined in
`node.cpp`, which is not among the sources. Section 4.5: the type is empty or the tag, the
id is empty or the `id` attribute, and every class is among the pieces of the `class`
attribute. -/
def Node.matches (n : Node) (sel : Selector) : Bool :=
  (sel.type == [] || sel.type == n.type) &&
  (sel.id == [] || sel.id == (mapFind n.attributes "id".toList).getD []) &&
  sel.classNames.all (fun cls =>
    (splitWhitespace ((mapFind n.attributes "class".toList).getD []) []).contains cls)

/-- Modelled from the spec: the first node in pre-order, from node `i` down, that passes
the test (section 4.5). The first argument bounds the depth of the descent. -/
def findFirst (heap : Heap) (test : Node → Bool) : Nat → Nat → Option Nat
  | 0, _ => none
  | fuel + 1, i =>
    match heap[i]? with
    | none => none
    | some n =>
      if test n then some i
      else n.children.findSome? (fun c => findFirst heap test fuel c)

/-- Modelled from the spec: `Tree::match` is declared in `tree.h` (line 15) and defined in
`tree.cpp`, which is not among the sources. Section 4.5: `@document` is the root, `@body`
the first node tagged `body`, and any other selector resolves to the first node in
pre-order that matches it. -/
def Tree.matchSelector (tree : Tree) (identifier : Str) : Option Nat :=
  if identifier = "@document".toList then some tree.root
  else if identifier = "@body".toList then
    findFirst tree.heap (fun n => n.type == "body".toList) tree.heap.length tree.root
  else
    findFirst tree.heap (fun n => n.matches (tokenizeSelector identifier)) tree.heap.length
      tree.root

/-- Modelled from the spec: `Tree::createElement` is declared in `tree.h` (line 17) and
defined in `tree.cpp`, which is not among the sources. Section 6: a node with the tag of
the spec, with the `id` and `class` attributes that the spec names. -/
def Tree.createElement (_tree : Tree) (elementSpec : Str) : Node :=
  let sel := tokenizeSelector elementSpec
  let withId := if sel.id = [] then [] else mapAssign [] "id".toList sel.id
  let attrs := if sel.classNames = [] then withId
    else mapAssign withId "class".toList (" ".toList.intercalate sel.classNames)
  { Node.new sel.type with attributes := attrs }

/-- Modelled from the spec: the collaborators of `resolveCmd`, with the splitter on spaces
for the words of a command. -/
def specCollaborators : Collaborators :=
  { tokenize := splitQuoted, matchSelector := Tree.matchSelector,
    createElement := Tree.createElement }

/-- The tree of `<div>`, `<p>`, `</p>`, `</div>`. -/
def divTree : Tree :=
  { heap := [{ Node.new "document".toList with children := [1] },
             { Node.new "div".toList with parent := some 0, children := [2] },
             { Node.new "p".toList with parent := some 1 }],
    root := 0 }

/-! ## Basic facts -/

theorem substr_ok (s : Str) (pos n : Nat) (h : pos ≤ s.length) :
    substr s pos n = .ok ((s.drop pos).take n) := by
  unfold substr
  rw [if_neg (by omega)]

theorem length_pos_of_charAt_zero (t : Str) (h : charAt t 0 = '<') : 1 ≤ t.length := by
  cases t with
  | nil => exact absurd h (by decide)
  | cons c rest => simp

theorem length_two_of_charAt_one (t : Str) (d : Char) (hd : d ≠ Char.ofNat 0)
    (h : charAt t 1 = d) : 2 ≤ t.length := by
  match t, h with
  | [], h => exact absurd h.symm hd
  | [_], h => exact absurd h.symm hd
  | _ :: _ :: _, _ => simp

/-- On a tag token `getTagName` returns a name. -/
theorem getTagName_ok (t : Str) (h : charAt t 0 = '<') : ∃ name, getTagName t = .ok name := by
  have h1 := length_pos_of_charAt_zero t h
  unfold getTagName
  rw [substr_ok t 0 2 (by omega)]
  simp only [bind, Except.bind]
  by_cases hh : (List.take 2 (List.drop 0 t)) = "</".toList
  · rw [if_pos hh]
    have : 2 ≤ t.length := by
      have := congrArg List.length hh
      simp at this
      omega
    rw [substr_ok t 2 _ this]
    exact ⟨_, rfl⟩
  · rw [if_neg hh, substr_ok t 1 _ h1]
    exact ⟨_, rfl⟩

theorem scanName_stop (name : Str) (c : Char) (rest : Str) (k : Nat)
    (hws : ∀ x ∈ name, isspace x = false) (hgt : '>' ∉ name)
    (hc : (!isspace c && c != '>') = false) :
    scanName (name ++ c :: rest) k = k + name.length := by
  induction name generalizing k with
  | nil => simp [scanName, hc]
  | cons x xs ih =>
    have hx : (!isspace x && x != '>') = true := by
      have h1 := hws x (List.mem_cons_self _ _)
      have h2 : x ≠ '>' := fun h => hgt (h ▸ List.mem_cons_self _ _)
      simp [h1, h2]
    have := ih (k + 1) (fun y hy => hws y (List.mem_cons_of_mem _ hy))
      (fun h => hgt (List.mem_cons_of_mem _ h))
    rw [List.cons_append, scanName, if_pos hx, this, List.length_cons]
    omega

/-- C9. `Parser::getTagName` returns the bare tag name: for a name without whitespace and
without `>` that does not begin with `/`, the closing tag `</name>`, the opening tag
`<name>` and the opening tag `<name rest>` with any attribute text all decode to `name`. -/
theorem getTagName_bare_name (name rest : Str)
    (hws : ∀ c ∈ name, isspace c = false) (hgt : '>' ∉ name) (hsl : name.head? ≠ some '/') :
    getTagName ("</".toList ++ name ++ ">".toList) = .ok name ∧
    getTagName ("<".toList ++ name ++ ">".toList) = .ok name ∧
    getTagName ("<".toList ++ name ++ " ".toList ++ rest ++ ">".toList) = .ok name := by
  have key : ∀ (c : Char) (tl : Str), (!isspace c && c != '>') = false →
      getTagName ('<' :: '/' :: (name ++ c :: tl)) = .ok name ∧
      getTagName ('<' :: (name ++ c :: tl)) = .ok name := by
    intro c tl hc
    constructor
    · unfold getTagName
      rw [substr_ok _ 0 2 (by simp)]
      simp only [bind, Except.bind]
      have hh : List.take 2 (List.drop 0 ('<' :: '/' :: (name ++ c :: tl))) = "</".toList := rfl
      rw [if_pos hh, substr_ok _ 2 _ (by simp)]
      simp [scanName_stop name c tl 2 hws hgt hc]
    · unfold getTagName
      rw [substr_ok _ 0 2 (by simp)]
      simp only [bind, Except.bind]
      have hh : List.take 2 (List.drop 0 ('<' :: (name ++ c :: tl))) ≠ "</".toList := by
        cases name with
        | nil =>
          have : c ≠ '/' := by
            intro h
            subst h
            exact absurd hc (by decide)
          simpa using this
        | cons x xs =>
          have : x ≠ '/' := by
            intro h
            subst h
            exact hsl rfl
          simpa using this
      rw [if_neg hh, substr_ok _ 1 _ (by simp)]
      simp [scanName_stop name c tl 1 hws hgt hc]
  refine ⟨?_, ?_, ?_⟩
  · simpa using (key '>' [] (by decide)).1
  · simpa using (key '>' [] (by decide)).2
  · simpa using (key ' ' (rest ++ ['>']) (by decide)).2

/-- The hypotheses of `getTagName_bare_name` hold for the name `div`. -/
theorem getTagName_bare_name_witness :
    getTagName "</div>".toList = .ok "div".toList ∧
    getTagName "<div>".toList = .ok "div".toList ∧
    getTagName "<div hidden>".toList = .ok "div".toList :=
  getTagName_bare_name "div".toList "hidden".toList (by decide) (by decide) (by decide)

/-! ## The branches of one iteration -/

theorem step_closing (tokenize : Str → List Str) (b : Builder) (t : Str)
    (h : isClosingTag t = true) : step tokenize b t = closeTag b t := by
  simp only [isClosingTag, Bool.and_eq_true, beq_iff_eq] at h
  simp [step, h.1, h.2]

theorem step_bang (tokenize : Str → List Str) (b : Builder) (t : Str)
    (h : isBangTag t = true) : step tokenize b t = commentTag b t := by
  simp only [isBangTag, Bool.and_eq_true, beq_iff_eq, bne_iff_ne] at h
  simp [step, h.1.1, h.1.2, h.2]

theorem step_opening (tokenize : Str → List Str) (b : Builder) (t : Str)
    (h : isOpeningTag t = true) : step tokenize b t = openTag tokenize b t := by
  simp only [isOpeningTag, Bool.and_eq_true, beq_iff_eq, bne_iff_ne] at h
  simp [step, h.1.1, h.1.2, h.2]

theorem step_text (tokenize : Str → List Str) (b : Builder) (t : Str)
    (h : isText t = true) : step tokenize b t = textToken b t := by
  simp only [isText, bne_iff_ne] at h
  simp [step, h]

theorem isTag_of_closing (t : Str) (h : isClosingTag t = true) : charAt t 0 = '<' := by
  simp only [isClosingTag, Bool.and_eq_true, beq_iff_eq] at h
  exact h.1

theorem isTag_of_opening (t : Str) (h : isOpeningTag t = true) : charAt t 0 = '<' := by
  simp only [isOpeningTag, Bool.and_eq_true, beq_iff_eq] at h
  exact h.1.1

theorem deref_error (heap : Heap) (p : Option Nat) (e : ParseError)
    (h : deref heap p = .error e) : e = .nullPointer := by
  unfold deref at h
  split at h
  · exact (Except.error.inj h).symm
  · split at h
    · exact (Except.error.inj h).symm
    · exact absurd h (by simp)

theorem deref_some (heap : Heap) (i : Nat) (n : Node) (h : heap[i]? = some n) :
    deref heap (some i) = .ok n := by
  simp [deref, h]

theorem deref_ok_iff (heap : Heap) (p : Option Nat) (n : Node) :
    deref heap p = .ok n ↔ ∃ i, p = some i ∧ heap[i]? = some n := by
  constructor
  · intro h
    unfold deref at h
    split at h
    · exact absurd h (by simp)
    · rename_i i
      split at h
      · exact absurd h (by simp)
      · rename_i m hm
        exact ⟨i, rfl, by rw [hm, Except.ok.inj h]⟩
  · rintro ⟨i, rfl, hi⟩
    exact deref_some heap i n hi

theorem store_some (heap : Heap) (i : Nat) (n : Node) (h : i < heap.length) :
    store heap (some i) n = .ok (heap.set i n) := by
  simp [store, h]

theorem lt_length_of_getElem? {heap : Heap} {i : Nat} {n : Node} (h : heap[i]? = some n) :
    i < heap.length := by
  by_contra hc
  rw [List.getElem?_eq_none (by omega)] at h
  exact absurd h (by simp)

theorem appendChild_fresh (heap : Heap) (c : Nat) (n : Node) (name : Str)
    (hn : heap[c]? = some n) :
    appendChild (heap ++ [Node.new name]) (some c) heap.length =
      .ok (heap.set c { n with children := n.children ++ [heap.length] } ++
        [{ Node.new name with parent := some c }]) := by
  have hc := lt_length_of_getElem? hn
  unfold appendChild
  rw [deref_some (heap ++ [Node.new name]) c n (by rw [List.getElem?_append_left hc]; exact hn)]
  simp only [bind, Except.bind]
  rw [store_some _ c _ (by simp; omega)]
  simp only []
  rw [List.set_append_left _ _ hc]
  rw [deref_some _ heap.length (Node.new name)
    (by rw [List.getElem?_append_right (by simp)]; simp)]
  simp only []
  rw [store_some _ _ _ (by simp)]
  rw [List.set_append_right _ _ (by simp)]
  simp

theorem openTag_eq (tokenize : Str → List Str) (b : Builder) (t name : Str) (attrs : AttrMap)
    (c : Nat) (n : Node) (hcc : b.commentCompleted = true) (hname : getTagName t = .ok name)
    (hattrs : getAttributes tokenize t = .ok attrs) (hnode : b.node = some c)
    (hn : b.heap[c]? = some n) :
    openTag tokenize b t = .ok (openedState b name attrs c n) := by
  unfold openTag
  rw [if_pos hcc, hname]
  simp only [bind, Except.bind, allocNode, hnode]
  rw [appendChild_fresh b.heap c n name hn, hattrs]
  simp only []
  rw [deref_some _ b.heap.length { Node.new name with parent := some c }
    (by rw [List.getElem?_append_right (by simp)]; simp)]
  simp only []
  rw [store_some _ _ _ (by simp)]
  rw [List.set_append_right _ _ (by simp)]
  simp [openedState, pure, Except.pure, Node.new, hcc]

theorem textToken_eq (b : Builder) (t : Str) (c : Nat) (n : Node)
    (hcc : b.commentCompleted = true) (hnode : b.node = some c) (hn : b.heap[c]? = some n) :
    textToken b t =
      .ok { b with heap := b.heap.set c { n with innerHTML := n.innerHTML ++ t } } := by
  unfold textToken
  rw [if_pos hcc, hnode, deref_some _ c n hn]
  simp only [bind, Except.bind]
  rw [store_some _ _ _ (lt_length_of_getElem? hn)]
  rfl

/-- C2. Closing-tag transition: on a closing tag token, from any builder state, the step
fails with the stray-tag error that names the decoded tag name exactly when the stack is
empty or its top differs from that name; otherwise, the cursor being a node `n`, the stack
is popped, the cursor becomes the parent of `n`, and the heap of nodes is unchanged. -/
theorem closing_tag_transition (tokenize : Str → List Str) (b : Builder) (token : Str)
    (h : isClosingTag token = true) :
    ∃ name, getTagName token = .ok name ∧
      (step tokenize b token = .error (.strayTag name) ↔
        (b.stack = [] ∨ b.stack.head? ≠ some name)) ∧
      (¬ (b.stack = [] ∨ b.stack.head? ≠ some name) → ∀ n, deref b.heap b.node = .ok n →
        step tokenize b token = .ok { b with node := n.parent, stack := b.stack.tail }) := by
  obtain ⟨name, hname⟩ := getTagName_ok token (isTag_of_closing token h)
  refine ⟨name, hname, ?_, ?_⟩
  · rw [step_closing tokenize b token h]
    unfold closeTag
    rw [hname]
    simp only [bind, Except.bind]
    by_cases hc : (b.stack.isEmpty || b.stack.head? != some name) = true
    · rw [if_pos hc]
      simp only [Bool.or_eq_true, List.isEmpty_iff, bne_iff_ne] at hc
      simp [hc]
    · rw [if_neg hc]
      simp only [Bool.or_eq_true, List.isEmpty_iff, bne_iff_ne] at hc
      constructor
      · intro hs
        exfalso
        unfold getParent at hs
        cases hd : deref b.heap b.node with
        | error e =>
          rw [hd] at hs
          have he := deref_error _ _ _ hd
          subst he
          simp [bind, Except.bind] at hs
        | ok n =>
          rw [hd] at hs
          simp [bind, Except.bind, pure, Except.pure] at hs
      · intro hs
        exact absurd hs hc
  · intro hc n hn
    rw [step_closing tokenize b token h]
    unfold closeTag
    rw [hname]
    simp only [bind, Except.bind]
    have hc2 : ¬ (b.stack.isEmpty || b.stack.head? != some name) = true := by
      simpa only [Bool.or_eq_true, List.isEmpty_iff, bne_iff_ne] using hc
    rw [if_neg hc2]
    unfold getParent
    rw [hn]
    rfl

/-- The tokens `<a>`, `</b>`: the first leaves the state `afterOpenA`, where the closing
tag `</b>` meets the top `a` of the stack, and the parse fails with a stray tag `b`. -/
theorem closing_tag_transition_witness :
    isClosingTag "</b>".toList = true ∧
    run splitQuoted ["<a>".toList] Builder.init = .ok afterOpenA ∧
    (∃ name, getTagName "</b>".toList = .ok name ∧
      (step splitQuoted afterOpenA "</b>".toList = .error (.strayTag name) ↔
        (afterOpenA.stack = [] ∨ afterOpenA.stack.head? ≠ some name)) ∧
      (¬ (afterOpenA.stack = [] ∨ afterOpenA.stack.head? ≠ some name) →
        ∀ n, deref afterOpenA.heap afterOpenA.node = .ok n →
        step splitQuoted afterOpenA "</b>".toList =
          .ok { afterOpenA with node := n.parent, stack := afterOpenA.stack.tail })) ∧
    parse splitQuoted ["<a>".toList, "</b>".toList] = .error (.strayTag "b".toList) :=
  ⟨rfl, rfl, closing_tag_transition splitQuoted afterOpenA "</b>".toList rfl, rfl⟩

theorem closeTag_root (b b1 : Builder) (t : Str) (h : closeTag b t = .ok b1) :
    b1.root = b.root := by
  unfold closeTag at h
  cases h1 : getTagName t with
  | error e => simp [h1, bind, Except.bind] at h
  | ok name =>
    simp only [h1, bind, Except.bind] at h
    split at h
    · exact absurd h (by simp)
    · cases h2 : getParent b.heap b.node with
      | error e => simp [h2] at h
      | ok p =>
        simp only [h2, pure, Except.pure, Except.ok.injEq] at h
        subst h
        rfl

theorem commentTag_root (b b1 : Builder) (t : Str) (h : commentTag b t = .ok b1) :
    b1.root = b.root := by
  unfold commentTag at h
  cases h1 : substr t 2 2 with
  | error e => simp [h1, bind, Except.bind] at h
  | ok d =>
    simp only [h1, bind, Except.bind, pure, Except.pure] at h
    split at h
    · split at h <;> (simp only [Except.ok.injEq] at h; subst h; rfl)
    · simp only [Except.ok.injEq] at h
      subst h
      rfl

theorem openTag_root (tokenize : Str → List Str) (b b1 : Builder) (t : Str)
    (h : openTag tokenize b t = .ok b1) : b1.root = b.root := by
  unfold openTag at h
  split at h
  · cases h1 : getTagName t with
    | error e => simp [h1, bind, Except.bind] at h
    | ok name =>
      simp only [h1, bind, Except.bind, allocNode] at h
      cases h2 : appendChild (b.heap ++ [Node.new name]) b.node b.heap.length with
      | error e => simp [h2] at h
      | ok heap2 =>
        simp only [h2] at h
        cases h3 : getAttributes tokenize t with
        | error e => simp [h3] at h
        | ok attrs =>
          simp only [h3] at h
          cases h4 : deref heap2 (some b.heap.length) with
          | error e => simp [h4] at h
          | ok n =>
            simp only [h4] at h
            cases h5 : store heap2 (some b.heap.length) { n with attributes := attrs } with
            | error e => simp [h5] at h
            | ok heap3 =>
              simp only [h5, pure, Except.pure, Except.ok.injEq] at h
              subst h
              rfl
  · simp only [pure, Except.pure] at h
    split at h <;> (simp only [Except.ok.injEq] at h; subst h; rfl)

theorem textToken_root (b b1 : Builder) (t : Str) (h : textToken b t = .ok b1) :
    b1.root = b.root := by
  unfold textToken at h
  split at h
  · cases h1 : deref b.heap b.node with
    | error e => simp [h1, bind, Except.bind] at h
    | ok n =>
      simp only [h1, bind, Except.bind] at h
      cases h2 : store b.heap b.node { n with innerHTML := n.innerHTML ++ t } with
      | error e => simp [h2] at h
      | ok heap1 =>
        simp only [h2, pure, Except.pure, Except.ok.injEq] at h
        subst h
        rfl
  · simp only [pure, Except.pure, Except.ok.injEq] at h
    subst h
    rfl

theorem step_root (tokenize : Str → List Str) (b b1 : Builder) (t : Str)
    (h : step tokenize b t = .ok b1) : b1.root = b.root := by
  unfold step at h
  split at h
  · split at h
    · exact closeTag_root b b1 t h
    · split at h
      · exact commentTag_root b b1 t h
      · exact openTag_root tokenize b b1 t h
  · exact textToken_root b b1 t h

theorem run_root (tokenize : Str → List Str) (tokens : List Str) (b b1 : Builder)
    (h : run tokenize tokens b = .ok b1) : b1.root = b.root := by
  induction tokens generalizing b with
  | nil =>
    simp only [run, Except.ok.injEq] at h
    subst h
    rfl
  | cons t ts ih =>
    simp only [run] at h
    cases hs : step tokenize b t with
    | error e => simp [hs] at h
    | ok b2 =>
      simp only [hs] at h
      rw [ih b2 h, step_root tokenize b b2 t hs]

theorem run_append (tokenize : Str → List Str) (xs ys : List Str) (b : Builder) :
    run tokenize (xs ++ ys) b =
      match run tokenize xs b with
      | .error e => .error e
      | .ok b1 => run tokenize ys b1 := by
  induction xs generalizing b with
  | nil => rfl
  | cons t ts ih =>
    simp only [List.cons_append, run]
    cases step tokenize b t with
    | error e => rfl
    | ok b1 => exact ih b1

/-- C3. End-of-input check: when the loop has processed the whole token sequence and left
the state `b`, the parse returns a tree exactly when the stack of `b` is empty, and that
tree is the heap of `b` rooted at the node created before the first token; when the stack
is not empty the parse fails with the unpaired-tag(s) error that carries the stack itself,
top (the tag opened last) first. -/
theorem end_of_input_check (tokenize : Str → List Str) (tokens : List Str) (b : Builder)
    (h : run tokenize tokens Builder.init = .ok b) :
    ((∃ t, parse tokenize tokens = .ok t) ↔ b.stack = []) ∧
    (b.stack = [] →
      parse tokenize tokens = .ok { heap := b.heap, root := Builder.init.root }) ∧
    (b.stack ≠ [] → parse tokenize tokens = .error (.unpairedTags b.stack)) := by
  have hroot := run_root tokenize tokens _ _ h
  have hp : parse tokenize tokens = finish b := by
    unfold parse
    rw [h]
  rw [hp]
  unfold finish
  by_cases hs : b.stack = []
  · simp [hs, hroot]
  · have : b.stack.isEmpty = false := by
      cases hb : b.stack with
      | nil => exact absurd hb hs
      | cons x xs => rfl
    simp [hs, this]

/-- The single token `<a>` is processed to its end, leaving `afterOpenA`, and the parse
fails listing exactly `a`; after `<a>`, `<b>` it lists `b` before `a`. -/
theorem end_of_input_check_witness :
    run splitQuoted ["<a>".toList] Builder.init = .ok afterOpenA ∧
    parse splitQuoted ["<a>".toList] = .error (.unpairedTags ["a".toList]) ∧
    parse splitQuoted ["<a>".toList, "<b>".toList] =
      .error (.unpairedTags ["b".toList, "a".toList]) :=
  ⟨rfl, (end_of_input_check splitQuoted ["<a>".toList] afterOpenA rfl).2.2 (by decide), rfl⟩

/-! ## What one iteration does to the inner texts -/

theorem store_inv (heap heap1 : Heap) (p : Option Nat) (m : Node)
    (h : store heap p m = .ok heap1) :
    ∃ j, p = some j ∧ j < heap.length ∧ heap1 = heap.set j m := by
  unfold store at h
  split at h
  · exact absurd h (by simp)
  · rename_i j
    split at h
    · rename_i hj
      exact ⟨j, rfl, hj, (Except.ok.inj h).symm⟩
    · exact absurd h (by simp)

theorem innerTextAt_store (heap heap1 : Heap) (p : Option Nat) (n m : Node)
    (hd : deref heap p = .ok n) (hs : store heap p m = .ok heap1)
    (hm : m.innerHTML = n.innerHTML) (i : Nat) :
    innerTextAt heap1 i = innerTextAt heap i := by
  obtain ⟨j, hp, hj, rfl⟩ := store_inv heap heap1 p m hs
  obtain ⟨j2, hp2, hn⟩ := (deref_ok_iff heap p n).1 hd
  rw [hp] at hp2
  cases hp2
  unfold innerTextAt
  rw [List.getElem?_set]
  by_cases hji : j = i
  · subst hji
    simp [hj, hn, hm]
  · simp [hji]

theorem innerTextAt_appendChild (heap heap1 : Heap) (p : Option Nat) (c : Nat)
    (h : appendChild heap p c = .ok heap1) (i : Nat) :
    innerTextAt heap1 i = innerTextAt heap i := by
  unfold appendChild at h
  cases h1 : deref heap p with
  | error e => simp [h1, bind, Except.bind] at h
  | ok n =>
    simp only [h1, bind, Except.bind] at h
    cases h2 : store heap p { n with children := n.children ++ [c] } with
    | error e => simp [h2] at h
    | ok heap2 =>
      simp only [h2] at h
      cases h3 : deref heap2 (some c) with
      | error e => simp [h3] at h
      | ok m =>
        simp only [h3] at h
        rw [innerTextAt_store heap2 heap1 (some c) m _ h3 h rfl,
          innerTextAt_store heap heap2 p n _ h1 h2 rfl]

theorem innerTextAt_alloc (heap : Heap) (name : Str) (i : Nat) :
    innerTextAt (heap ++ [Node.new name]) i = innerTextAt heap i := by
  unfold innerTextAt
  rw [List.getElem?_append]
  by_cases hi : i < heap.length
  · simp [hi]
  · rw [if_neg hi, List.getElem?_eq_none (l := heap) (by omega)]
    by_cases h0 : i - heap.length = 0
    · simp [h0, Node.new]
    · rw [List.getElem?_eq_none (by simp; omega)]

theorem closeTag_heap (b b1 : Builder) (t : Str) (h : closeTag b t = .ok b1) :
    b1.heap = b.heap := by
  unfold closeTag at h
  cases h1 : getTagName t with
  | error e => simp [h1, bind, Except.bind] at h
  | ok name =>
    simp only [h1, bind, Except.bind] at h
    split at h
    · exact absurd h (by simp)
    · cases h2 : getParent b.heap b.node with
      | error e => simp [h2] at h
      | ok p =>
        simp only [h2, pure, Except.pure, Except.ok.injEq] at h
        subst h
        rfl

theorem commentTag_heap (b b1 : Builder) (t : Str) (h : commentTag b t = .ok b1) :
    b1.heap = b.heap := by
  unfold commentTag at h
  cases h1 : substr t 2 2 with
  | error e => simp [h1, bind, Except.bind] at h
  | ok d =>
    simp only [h1, bind, Except.bind, pure, Except.pure] at h
    split at h
    · split at h <;> (simp only [Except.ok.injEq] at h; subst h; rfl)
    · simp only [Except.ok.injEq] at h
      subst h
      rfl

theorem openTag_innerText (tokenize : Str → List Str) (b b1 : Builder) (t : Str)
    (h : openTag tokenize b t = .ok b1) (i : Nat) :
    innerTextAt b1.heap i = innerTextAt b.heap i := by
  unfold openTag at h
  split at h
  · cases h1 : getTagName t with
    | error e => simp [h1, bind, Except.bind] at h
    | ok name =>
      simp only [h1, bind, Except.bind, allocNode] at h
      cases h2 : appendChild (b.heap ++ [Node.new name]) b.node b.heap.length with
      | error e => simp [h2] at h
      | ok heap2 =>
        simp only [h2] at h
        cases h3 : getAttributes tokenize t with
        | error e => simp [h3] at h
        | ok attrs =>
          simp only [h3] at h
          cases h4 : deref heap2 (some b.heap.length) with
          | error e => simp [h4] at h
          | ok n =>
            simp only [h4] at h
            cases h5 : store heap2 (some b.heap.length) { n with attributes := attrs } with
            | error e => simp [h5] at h
            | ok heap3 =>
              simp only [h5, pure, Except.pure, Except.ok.injEq] at h
              subst h
              show innerTextAt heap3 i = innerTextAt b.heap i
              rw [innerTextAt_store heap2 heap3 _ n _ h4 h5 rfl,
                innerTextAt_appendChild _ heap2 _ _ h2, innerTextAt_alloc]
  · simp only [pure, Except.pure] at h
    split at h <;> (simp only [Except.ok.injEq] at h; subst h; rfl)

theorem textToken_innerText (b b1 : Builder) (t : Str) (h : textToken b t = .ok b1)
    (i : Nat) :
    innerTextAt b1.heap i = innerTextAt b.heap i ++
      (if (b.commentCompleted && b.node == some i) = true then t else []) := by
  unfold textToken at h
  split at h
  · rename_i hcc
    cases h1 : deref b.heap b.node with
    | error e => simp [h1, bind, Except.bind] at h
    | ok n =>
      simp only [h1, bind, Except.bind] at h
      cases h2 : store b.heap b.node { n with innerHTML := n.innerHTML ++ t } with
      | error e => simp [h2] at h
      | ok heap1 =>
        simp only [h2, pure, Except.pure, Except.ok.injEq] at h
        subst h
        obtain ⟨j, hp, hj, rfl⟩ := store_inv _ _ _ _ h2
        obtain ⟨j2, hp2, hn⟩ := (deref_ok_iff _ _ n).1 h1
        rw [hp] at hp2
        cases hp2
        show innerTextAt (b.heap.set j _) i = _
        unfold innerTextAt
        rw [List.getElem?_set, hp, hcc]
        by_cases hji : j = i
        · subst hji
          simp [hj, hn]
        · simp [hji]
  · rename_i hcc
    simp only [pure, Except.pure, Except.ok.injEq] at h
    subst h
    simp [hcc]

theorem step_innerText (tokenize : Str → List Str) (b b1 : Builder) (t : Str)
    (h : step tokenize b t = .ok b1) (i : Nat) :
    innerTextAt b1.heap i = innerTextAt b.heap i ++
      (if (isText t && b.commentCompleted && b.node == some i) = true then t else []) := by
  unfold step at h
  split at h
  · rename_i h0
    have ht : isText t = false := by simp [isText, h0]
    simp only [ht, Bool.false_and]
    split at h
    · rw [closeTag_heap b b1 t h]
      simp
    · split at h
      · rw [commentTag_heap b b1 t h]
        simp
      · rw [openTag_innerText tokenize b b1 t h]
        simp
  · rename_i h0
    have ht : isText t = true := by simp [isText, h0]
    rw [textToken_innerText b b1 t h i, ht]
    simp

theorem run_innerText (tokenize : Str → List Str) (tokens : List Str) (b b1 : Builder)
    (h : run tokenize tokens b = .ok b1) (i : Nat) :
    innerTextAt b1.heap i = innerTextAt b.heap i ++ textsAt tokenize i tokens b := by
  induction tokens generalizing b with
  | nil =>
    simp only [run, Except.ok.injEq] at h
    subst h
    simp [textsAt]
  | cons t ts ih =>
    simp only [run] at h
    cases hs : step tokenize b t with
    | error e => simp [hs] at h
    | ok b2 =>
      simp only [hs] at h
      rw [ih b2 h, step_innerText tokenize b b2 t hs i]
      simp only [textsAt, hs, List.append_assoc]

/-- C6, amended. Opening-tag transition: outside a comment, with the cursor at node `c`
(record `n`), an opening tag token whose attributes decode to `attrs` creates exactly one node: the
heap grows by one record, the new record has the decoded tag name, the attributes `attrs`,
no children and empty inner text (and `c` as its parent); the new node is appended after
the earlier children of `c`, the tag name is pushed on the stack, the cursor becomes the
new node, and every other node, the root pointer and the comment flag are unchanged. -/
theorem opening_tag_transition (tokenize : Str → List Str) (b : Builder) (token : Str)
    (attrs : AttrMap) (c : Nat) (n : Node)
    (hcc : b.commentCompleted = true) (hopen : isOpeningTag token = true)
    (hnode : b.node = some c) (hn : b.heap[c]? = some n)
    (hattrs : getAttributes tokenize token = .ok attrs) :
    ∃ name b1, getTagName token = .ok name ∧ step tokenize b token = .ok b1 ∧
      b1.heap.length = b.heap.length + 1 ∧
      b1.heap[b.heap.length]? = some { type := name, innerHTML := [], parent := some c,
                                       children := [], attributes := attrs } ∧
      b1.heap[c]? = some { n with children := n.children ++ [b.heap.length] } ∧
      (∀ i, i ≠ c → i < b.heap.length → b1.heap[i]? = b.heap[i]?) ∧
      b1.stack = name :: b.stack ∧ b1.node = some b.heap.length ∧
      b1.commentCompleted = true ∧ b1.root = b.root := by
  obtain ⟨name, hname⟩ := getTagName_ok token (isTag_of_opening token hopen)
  have hc := lt_length_of_getElem? hn
  refine ⟨name, openedState b name attrs c n, hname, ?_, ?_, ?_, ?_, ?_, rfl, rfl, hcc, rfl⟩
  · rw [step_opening tokenize b token hopen]
    exact openTag_eq tokenize b token name attrs c n hcc hname hattrs hnode hn
  · simp [openedState]
  · simp only [openedState]
    rw [List.getElem?_append_right (by simp)]
    simp
  · simp only [openedState]
    rw [List.getElem?_append_left (by simp; omega), List.getElem?_set]
    simp [hc]
  · intro i hic hi
    simp only [openedState]
    rw [List.getElem?_append_left (by simp; omega), List.getElem?_set]
    simp [Ne.symm hic]

/-- The token `<a>` at the start of a parse, and the tag `<b id="x">` in the state
`afterOpenA`, with the cursor at node 1: the hypotheses of `opening_tag_transition` hold;
the first step leaves the state `afterOpenA`, the second creates node 2, tagged `b`, with
the attribute `id`, below node 1. -/
theorem opening_tag_transition_witness :
    Builder.init.commentCompleted = true ∧ isOpeningTag "<a>".toList = true ∧
    getAttributes splitQuoted "<a>".toList = .ok [] ∧
    step splitQuoted Builder.init "<a>".toList = .ok afterOpenA ∧
    isOpeningTag (renderTag "b".toList [("id".toList, "x".toList)]) = true ∧
    getAttributes splitQuoted (renderTag "b".toList [("id".toList, "x".toList)]) =
      .ok [("id".toList, "x".toList)] ∧
    ∃ name b1, getTagName (renderTag "b".toList [("id".toList, "x".toList)]) = .ok name ∧
      step splitQuoted afterOpenA (renderTag "b".toList [("id".toList, "x".toList)]) = .ok b1 ∧
      name = "b".toList ∧
      b1.heap.length = 3 ∧
      b1.heap[2]? = some { type := name, innerHTML := [], parent := some 1, children := [],
                           attributes := [("id".toList, "x".toList)] } ∧
      b1.heap[1]? = some { Node.new "a".toList with parent := some 0, children := [2] } ∧
      b1.stack = [name, "a".toList] ∧ b1.node = some 2 := by
  refine ⟨rfl, rfl, rfl, rfl, rfl, rfl, ?_⟩
  obtain ⟨name, b1, h1, h2, h3, h4, h5, _, h7, h8, _, _⟩ :=
    opening_tag_transition splitQuoted afterOpenA
      (renderTag "b".toList [("id".toList, "x".toList)]) [("id".toList, "x".toList)] 1
      { Node.new "a".toList with parent := some 0 } rfl rfl rfl rfl rfl
  have hname : name = "b".toList := by
    have h0 : getTagName (renderTag "b".toList [("id".toList, "x".toList)]) =
        .ok "b".toList := rfl
    rw [h0] at h1
    exact (Except.ok.inj h1).symm
  exact ⟨name, b1, h1, h2, hname, h3, h4, h5, h7, h8⟩

/-- C6, as stated, fails: at the start of a parse, outside a comment and with the cursor
at the root, the opening tag token `<a b=>` does not complete the transition: the decode
of its attributes throws `std::out_of_range` (the attribute token `b=` ends at its `=`),
so the step ends in that error and leaves no state with a new node, a pushed name and a
moved cursor. -/
theorem opening_tag_transition_counterexample :
    Builder.init.commentCompleted = true ∧
    isOpeningTag "<a b=>".toList = true ∧
    Builder.init.node = some 0 ∧
    Builder.init.heap[0]? = some (Node.new "document".toList) ∧
    getTagName "<a b=>".toList = .ok "a".toList ∧
    getAttributes splitQuoted "<a b=>".toList = .error .outOfRange ∧
    step splitQuoted Builder.init "<a b=>".toList = .error .outOfRange ∧
    ¬ ∃ b1, step splitQuoted Builder.init "<a b=>".toList = .ok b1 := by
  refine ⟨rfl, rfl, rfl, rfl, rfl, rfl, rfl, ?_⟩
  rintro ⟨b1, h⟩
  have h0 : step splitQuoted Builder.init "<a b=>".toList = .error .outOfRange := rfl
  rw [h0] at h
  exact absurd h (by simp)

/-- C7. Text accumulation. (1) Outside a comment, with the cursor at node `c` (record `n`),
a text token is appended as it is to the inner text of `c`; the stack, the cursor, the
flags, the children of `c` and every other node are unchanged. (2) In every tree that the
parse returns, the inner text of each node is the concatenation, in source order, of the
text tokens that were processed outside a comment while that node was the cursor. -/
theorem text_accumulation (tokenize : Str → List Str) :
    (∀ (b : Builder) (token : Str) (c : Nat) (n : Node),
      b.commentCompleted = true → isText token = true → b.node = some c →
      b.heap[c]? = some n →
      step tokenize b token =
        .ok { b with heap := b.heap.set c { n with innerHTML := n.innerHTML ++ token } }) ∧
    (∀ (tokens : List Str) (tree : Tree), parse tokenize tokens = .ok tree →
      ∀ (i : Nat) (n : Node), tree.heap[i]? = some n →
        n.innerHTML = textsAt tokenize i tokens Builder.init) := by
  constructor
  · intro b token c n hcc ht hnode hn
    rw [step_text tokenize b token ht]
    exact textToken_eq b token c n hcc hnode hn
  · intro tokens tree hp i n hn
    unfold parse at hp
    cases hr : run tokenize tokens Builder.init with
    | error e => simp [hr] at hp
    | ok b =>
      simp only [hr] at hp
      unfold finish at hp
      split at hp
      · simp only [Except.ok.injEq] at hp
        subst hp
        have h := run_innerText tokenize tokens Builder.init b hr i
        have h0 : innerTextAt Builder.init.heap i = [] := by
          unfold innerTextAt Builder.init
          cases i with
          | zero => rfl
          | succ k => rfl
        rw [h0, List.nil_append] at h
        rw [← h]
        simp only [innerTextAt]
        simp only [] at hn
        rw [hn]
      · exact absurd hp (by simp)

/-- The tokens `hi`, `<p>`, `a`, `b`, `</p>`, `!`: the root collects `hi!` and the `p`
node collects `ab`. -/
theorem text_accumulation_witness :
    parse splitQuoted ["hi".toList, "<p>".toList, "a".toList, "b".toList, "</p>".toList,
        "!".toList] =
      .ok { heap := [{ Node.new "document".toList with
                        innerHTML := "hi!".toList, children := [1] },
                     { Node.new "p".toList with innerHTML := "ab".toList, parent := some 0 }],
            root := 0 } ∧
    textsAt splitQuoted 1 ["hi".toList, "<p>".toList, "a".toList, "b".toList, "</p>".toList,
        "!".toList] Builder.init = "ab".toList ∧
    "ab".toList = textsAt splitQuoted 1 ["hi".toList, "<p>".toList, "a".toList, "b".toList,
        "</p>".toList, "!".toList] Builder.init :=
  ⟨rfl, rfl, (text_accumulation splitQuoted).2
    ["hi".toList, "<p>".toList, "a".toList, "b".toList, "</p>".toList, "!".toList]
    { heap := [{ Node.new "document".toList with innerHTML := "hi!".toList, children := [1] },
               { Node.new "p".toList with innerHTML := "ab".toList, parent := some 0 }],
      root := 0 } rfl 1
    { Node.new "p".toList with innerHTML := "ab".toList, parent := some 0 } rfl⟩

/-- C8. Self-contained comment: a token that begins with `<!--` and ends with `-->`,
processed while no comment is open, leaves the builder state as it is; hence inserting
such a token at a place of a token sequence where no comment is open does not change the
result of the parse, be it a tree or an error. -/
theorem self_contained_comment (tokenize : Str → List Str) (token : Str)
    (hbegin : token.take 4 = "<!--".toList) (hend : endsWith token "-->".toList = true) :
    (∀ b : Builder, b.commentCompleted = true → step tokenize b token = .ok b) ∧
    (∀ before after : List Str,
      (∀ b, run tokenize before Builder.init = .ok b → b.commentCompleted = true) →
      parse tokenize (before ++ token :: after) = parse tokenize (before ++ after)) := by
  have hstep : ∀ b : Builder, b.commentCompleted = true → step tokenize b token = .ok b := by
    intro b hcc
    match token, hbegin, hend with
    | c0 :: c1 :: c2 :: c3 :: rest, hbegin, hend =>
      simp only [List.take, String.toList] at hbegin
      injection hbegin with e0 hbegin
      injection hbegin with e1 hbegin
      injection hbegin with e2 hbegin
      injection hbegin with e3 _
      subst e0 e1 e2 e3
      rw [step_bang tokenize b ('<' :: '!' :: '-' :: '-' :: rest) rfl]
      unfold commentTag
      rw [substr_ok _ 2 2 (by simp)]
      simp only [bind, Except.bind]
      have hd : List.take 2 (List.drop 2 ('<' :: '!' :: '-' :: '-' :: rest)) = "--".toList := rfl
      rw [if_pos hd, if_pos hend]
      cases b
      simp only [] at hcc
      subst hcc
      rfl
  refine ⟨hstep, ?_⟩
  intro before after hopen
  unfold parse
  rw [run_append, run_append]
  cases hr : run tokenize before Builder.init with
  | error e => rfl
  | ok b =>
    simp only []
    rw [run, hstep b (hopen b hr)]

/-- The comment `<!-- note -->` between `<a>` and `</a>`: the hypotheses hold and the
parse is that of `<a>`, `</a>`. -/
theorem self_contained_comment_witness :
    "<!-- note -->".toList.take 4 = "<!--".toList ∧
    endsWith "<!-- note -->".toList "-->".toList = true ∧
    step splitQuoted afterOpenA "<!-- note -->".toList = .ok afterOpenA ∧
    parse splitQuoted (["<a>".toList] ++ "<!-- note -->".toList :: ["</a>".toList]) =
      parse splitQuoted (["<a>".toList] ++ ["</a>".toList]) :=
  ⟨rfl, rfl,
    (self_contained_comment splitQuoted "<!-- note -->".toList rfl rfl).1 afterOpenA rfl,
    (self_contained_comment splitQuoted "<!-- note -->".toList rfl rfl).2 ["<a>".toList]
      ["</a>".toList] (by
        intro b hb
        have : b = afterOpenA := by
          have h2 : run splitQuoted ["<a>".toList] Builder.init = .ok afterOpenA := rfl
          rw [h2] at hb
          exact (Except.ok.inj hb).symm
        rw [this]
        rfl)⟩

/-- C4 (the code departs from the claim on closing tags). While a comment is open, a token
that does not end in `-->` and is not a closing tag is discarded: the state is unchanged.
A closing tag is not: it is matched against the stack as outside a comment. On the tokens
of `<div><!-- <span>ignored</span> --></div>` the state before `</span>` is
`insideComment`, the step on `</span>` exits with the stray-tag error for `span`, and so
does the parse; on `</div>` the step pops the stack and moves the cursor. -/
theorem closing_tag_inside_comment :
    (∀ (tokenize : Str → List Str) (b : Builder) (token : Str),
      b.commentCompleted = false → endsWith token "-->".toList = false →
      isClosingTag token = false → step tokenize b token = .ok b) ∧
    run splitQuoted ["<div>".toList, "<!-- <span>".toList, "ignored".toList] Builder.init =
      .ok insideComment ∧
    insideComment.commentCompleted = false ∧
    endsWith "</span>".toList "-->".toList = false ∧
    step splitQuoted insideComment "</span>".toList = .error (.strayTag "span".toList) ∧
    parse splitQuoted ["<div>".toList, "<!-- <span>".toList, "ignored".toList,
      "</span>".toList, " -->".toList, "</div>".toList] = .error (.strayTag "span".toList) ∧
    step splitQuoted insideComment "</div>".toList =
      .ok { insideComment with node := some 0, stack := [] } := by
  refine ⟨?_, rfl, rfl, rfl, rfl, rfl, rfl⟩
  intro tokenize b token hcc hend hclose
  by_cases h0 : charAt token 0 = '<'
  · have h1 : charAt token 1 ≠ '/' := by
      intro h1
      simp [isClosingTag, h0, h1] at hclose
    by_cases h2 : charAt token 1 = '!'
    · rw [step_bang tokenize b token (by simp [isBangTag, h0, h1, h2])]
      unfold commentTag
      rw [substr_ok token 2 2 (length_two_of_charAt_one token '!' (by decide) h2)]
      simp only [bind, Except.bind, hend, pure, Except.pure]
      cases b
      simp only [] at hcc
      subst hcc
      split <;> rfl
    · rw [step_opening tokenize b token (by simp [isOpeningTag, h0, h1, h2])]
      unfold openTag
      rw [if_neg (by rw [hcc]; exact Bool.false_ne_true),
        if_neg (by rw [hend]; exact Bool.false_ne_true)]
      rfl
  · rw [step_text tokenize b token (by simp [isText, h0])]
    unfold textToken
    rw [if_neg (by rw [hcc]; exact Bool.false_ne_true)]
    rfl

/-- While a comment is open, a token that ends in `-->` and is an opening tag token or
begins with `<!--` closes the span: the step changes nothing but the comment flag, and the
next token is processed as outside a comment: a text token is appended to the inner text
of the cursor, an opening tag creates a node below the cursor. -/
theorem comment_closing_by_tag (tokenize : Str → List Str) (b : Builder) (token : Str)
    (hcc : b.commentCompleted = false) (hend : endsWith token "-->".toList = true)
    (hshape : isOpeningTag token = true ∨ token.take 4 = "<!--".toList) :
    step tokenize b token = .ok { b with commentCompleted := true } ∧
    (∀ (text : Str) (c : Nat) (n : Node), isText text = true → b.node = some c →
      b.heap[c]? = some n →
      run tokenize [token, text] b =
        .ok { b with commentCompleted := true,
                     heap := b.heap.set c { n with innerHTML := n.innerHTML ++ text } }) ∧
    (∀ (tag name : Str) (attrs : AttrMap) (c : Nat) (n : Node), isOpeningTag tag = true →
      getTagName tag = .ok name → getAttributes tokenize tag = .ok attrs →
      b.node = some c → b.heap[c]? = some n →
      run tokenize [token, tag] b =
        .ok (openedState { b with commentCompleted := true } name attrs c n)) := by
  have hstep : step tokenize b token = .ok { b with commentCompleted := true } := by
    rcases hshape with ho | hb
    · rw [step_opening tokenize b token ho]
      unfold openTag
      rw [if_neg (by rw [hcc]; exact Bool.false_ne_true), if_pos hend]
      rfl
    · match token, hb, hend with
      | c0 :: c1 :: c2 :: c3 :: rest, hb, hend =>
        simp only [List.take, String.toList] at hb
        injection hb with e0 hb
        injection hb with e1 hb
        injection hb with e2 hb
        injection hb with e3 _
        subst e0 e1 e2 e3
        rw [step_bang tokenize b ('<' :: '!' :: '-' :: '-' :: rest) rfl]
        unfold commentTag
        rw [substr_ok _ 2 2 (by simp)]
        simp only [bind, Except.bind]
        have hd : List.take 2 (List.drop 2 ('<' :: '!' :: '-' :: '-' :: rest)) = "--".toList :=
          rfl
        rw [if_pos hd, if_pos hend]
        rfl
  refine ⟨hstep, ?_, ?_⟩
  · intro text c n ht hnode hn
    simp only [run, hstep]
    rw [step_text tokenize { b with commentCompleted := true } text ht,
      textToken_eq { b with commentCompleted := true } text c n rfl hnode hn]
  · intro tag name attrs c n ho hname hattrs hnode hn
    simp only [run, hstep]
    rw [step_opening tokenize { b with commentCompleted := true } tag ho,
      openTag_eq tokenize { b with commentCompleted := true } tag name attrs c n rfl hname
        hattrs hnode hn]

/-- With the comment of `insideCommentA` open, the token `<i -->` closes it, and the `<b>`
after it becomes a child of `a`. -/
theorem comment_closing_by_tag_witness :
    insideCommentA.commentCompleted = false ∧ endsWith "<i -->".toList "-->".toList = true ∧
    isOpeningTag "<i -->".toList = true ∧
    step splitQuoted insideCommentA "<i -->".toList = .ok afterOpenA ∧
    parse splitQuoted ["<a>".toList, "<!--".toList, "x".toList, "<i -->".toList, "<b>".toList,
      "</b>".toList, "</a>".toList] =
      .ok { heap := [{ Node.new "document".toList with children := [1] },
                     { Node.new "a".toList with parent := some 0, children := [2] },
                     { Node.new "b".toList with parent := some 1 }],
            root := 0 } :=
  ⟨rfl, rfl, rfl,
    (comment_closing_by_tag splitQuoted insideCommentA "<i -->".toList rfl rfl (Or.inl rfl)).1,
    rfl⟩

/-- C5 (the code departs from the claim on text tokens). While a comment is open, a token
that ends in `-->` closes the span when it is an opening tag token or begins with `<!--`:
the step changes the comment flag and nothing else. A text token is not tested for its
end: whatever it ends in, it leaves the whole state as it is, the open comment included.
With the comment of `insideCommentA` open (the state after `<a>`, `<!--`), the text token
`-->` ends in `-->` and leaves the comment open, the opening tag `<b>` after it creates no
node, and the parse of `<a>`, `<!--`, `x`, `-->`, `<b>`, `</b>`, `</a>` exits with the
stray-tag error for `b`. -/
theorem text_token_inside_comment :
    (∀ (tokenize : Str → List Str) (b : Builder) (token : Str),
      b.commentCompleted = false → endsWith token "-->".toList = true →
      (isOpeningTag token = true ∨ token.take 4 = "<!--".toList) →
      step tokenize b token = .ok { b with commentCompleted := true }) ∧
    (∀ (tokenize : Str → List Str) (b : Builder) (token : Str),
      b.commentCompleted = false → isText token = true → step tokenize b token = .ok b) ∧
    run splitQuoted ["<a>".toList, "<!--".toList] Builder.init = .ok insideCommentA ∧
    insideCommentA.commentCompleted = false ∧
    isText "-->".toList = true ∧
    endsWith "-->".toList "-->".toList = true ∧
    step splitQuoted insideCommentA "-->".toList = .ok insideCommentA ∧
    run splitQuoted ["-->".toList, "<b>".toList] insideCommentA = .ok insideCommentA ∧
    parse splitQuoted ["<a>".toList, "<!--".toList, "x".toList, "-->".toList, "<b>".toList,
      "</b>".toList, "</a>".toList] = .error (.strayTag "b".toList) := by
  refine ⟨?_, ?_, rfl, rfl, rfl, rfl, rfl, rfl, rfl⟩
  · intro tokenize b token hcc hend hshape
    exact (comment_closing_by_tag tokenize b token hcc hend hshape).1
  · intro tokenize b token hcc ht
    rw [step_text tokenize b token ht]
    unfold textToken
    rw [if_neg (by rw [hcc]; exact Bool.false_ne_true)]
    rfl

theorem mapFind_mapAssign (m : AttrMap) (k v k2 : Str) :
    mapFind (mapAssign m k v) k2 = if k2 = k then some v else mapFind m k2 := by
  unfold mapFind mapAssign
  rw [List.lookup_cons]
  by_cases h : k2 = k
  · subst h
    simp
  · have hb : (k2 == k) = false := by simpa using h
    rw [hb, if_neg h]
    simp only []
    induction m with
    | nil => rfl
    | cons p ps ih =>
      obtain ⟨pk, pv⟩ := p
      by_cases hp : pk = k
      · subst hp
        simp only [List.filter, bne_self_eq_false]
        rw [List.lookup_cons, hb]
        exact ih
      · have hne : (pk != k) = true := by simpa using hp
        simp only [List.filter, hne]
        rw [List.lookup_cons, List.lookup_cons]
        cases hk : k2 == pk with
        | true => rfl
        | false => exact ih

theorem lookup_append_single (l : List (Str × Str)) (k v k2 : Str) :
    (l ++ [(k, v)]).lookup k2 =
      match l.lookup k2 with
      | some w => some w
      | none => if k2 = k then some v else none := by
  induction l with
  | nil =>
    simp only [List.nil_append, List.lookup_cons, List.lookup_nil]
    by_cases h : k2 = k
    · subst h
      simp
    · have hb : (k2 == k) = false := by simpa using h
      simp [hb, h]
  | cons p ps ih =>
    obtain ⟨pk, pv⟩ := p
    simp only [List.cons_append, List.lookup_cons]
    cases hk : k2 == pk with
    | true => rfl
    | false => exact ih

theorem findFirstOf_attrToken (k v : Str) (hk : '=' ∉ k) :
    findFirstOf (attrToken k v) '=' = (k.length : Int) := by
  unfold findFirstOf attrToken
  rw [if_pos (by simp)]
  rw [List.indexOf_append_of_not_mem hk]
  simp

theorem toSizeT_natCast (n : Nat) : toSizeT (n : Int) = n := by
  unfold toSizeT
  rw [if_pos (Int.ofNat_nonneg n)]
  simp

theorem decodePair_attrToken (pairs : AttrMap) (k v : Str) (hk : '=' ∉ k) :
    decodePair pairs (attrToken k v) = .ok (mapAssign pairs k v) := by
  unfold decodePair
  simp only [findFirstOf_attrToken k v hk]
  have hlen : (attrToken k v).length = k.length + v.length + 3 := by
    simp [attrToken]
    omega
  have e1 : ((k.length : Int) + 2) = ((k.length + 2 : Nat) : Int) := by push_cast; ring
  have e2 : (((attrToken k v).length : Int) - (k.length : Int) - 3) = ((v.length : Nat) : Int) := by
    rw [hlen]
    push_cast
    ring
  rw [e1, e2, toSizeT_natCast, toSizeT_natCast, toSizeT_natCast]
  rw [substr_ok _ _ _ (by rw [hlen]; omega), substr_ok _ _ _ (by omega)]
  simp only [bind, Except.bind, pure, Except.pure]
  have hv : List.take v.length (List.drop (k.length + 2) (attrToken k v)) = v := by
    unfold attrToken
    have hd : List.drop (k.length + 2) (k ++ ('=' :: dquote :: (v ++ [dquote]))) =
        v ++ [dquote] := by
      rw [List.drop_append_eq_append_drop, List.drop_of_length_le (by omega)]
      simp
    rw [hd]
    simp
  have hkey : List.take k.length (List.drop 0 (attrToken k v)) = k := by
    unfold attrToken
    simp
  rw [hv, hkey]

theorem decodePairs_attrTokens (kvs : List (Str × Str)) (pairs : AttrMap)
    (hk : ∀ p ∈ kvs, '=' ∉ p.1) :
    ∃ m, decodePairs (kvs.map (fun p => attrToken p.1 p.2)) pairs = .ok m ∧
      ∀ key, mapFind m key =
        match lastValue kvs key with
        | some w => some w
        | none => mapFind pairs key := by
  induction kvs generalizing pairs with
  | nil => exact ⟨pairs, rfl, fun key => rfl⟩
  | cons p ps ih =>
    obtain ⟨k, v⟩ := p
    obtain ⟨m, hm, hfind⟩ := ih (mapAssign pairs k v)
      (fun q hq => hk q (List.mem_cons_of_mem _ hq))
    refine ⟨m, ?_, ?_⟩
    · simp only [List.map_cons, decodePairs]
      rw [decodePair_attrToken pairs k v (hk (k, v) (List.mem_cons_self _ _))]
      exact hm
    · intro key
      rw [hfind key]
      unfold lastValue
      rw [List.reverse_cons, lookup_append_single, mapFind_mapAssign]
      cases List.lookup key ps.reverse with
      | some w => rfl
      | none => by_cases hkey : key = k <;> simp [hkey]

theorem lastValue_isSome_iff (kvs : List (Str × Str)) (key : Str) :
    (lastValue kvs key).isSome = true ↔ key ∈ kvs.map Prod.fst := by
  unfold lastValue
  induction kvs with
  | nil => simp
  | cons p ps ih =>
    obtain ⟨k, v⟩ := p
    rw [List.reverse_cons, lookup_append_single]
    cases h : List.lookup key ps.reverse with
    | some w =>
      rw [h] at ih
      have := ih.1 rfl
      simp only [List.map_cons, List.mem_cons]
      simp [this]
    | none =>
      rw [h] at ih
      have hn : key ∉ ps.map Prod.fst := fun hmem => absurd (ih.2 hmem) (by simp)
      simp only [List.map_cons, List.mem_cons]
      by_cases hk : key = k
      · simp [hk]
      · simp [hk, hn]

theorem lastValue_of_nodup (kvs : List (Str × Str)) (hnd : (kvs.map Prod.fst).Nodup)
    (p : Str × Str) (hp : p ∈ kvs) : lastValue kvs p.1 = some p.2 := by
  unfold lastValue
  induction kvs with
  | nil => exact absurd hp (by simp)
  | cons q qs ih =>
    obtain ⟨k, v⟩ := q
    rw [List.map_cons, List.nodup_cons] at hnd
    rw [List.reverse_cons, lookup_append_single]
    rcases List.mem_cons.1 hp with heq | hmem
    · subst heq
      have hnone : List.lookup k qs.reverse = none := by
        cases h : List.lookup k qs.reverse with
        | none => rfl
        | some w =>
          have := (lastValue_isSome_iff qs k).1 (by unfold lastValue; rw [h]; rfl)
          exact absurd this hnd.1
      rw [hnone]
      simp
    · rw [ih hnd.2 hmem]

theorem truncTag_renderTag (name : Str) (kvs : List (Str × Str)) :
    substr (renderTag name kvs) 1 (toSizeT (((renderTag name kvs).length : Int) - 2)) =
      .ok (tagBody name kvs) := by
  have hlen : (renderTag name kvs).length = (tagBody name kvs).length + 2 := by
    simp [renderTag]
  have e : (((renderTag name kvs).length : Int) - 2) = (((tagBody name kvs).length : Nat) : Int) := by
    rw [hlen]
    push_cast
    ring
  rw [e, toSizeT_natCast, substr_ok _ _ _ (by rw [hlen]; omega)]
  simp [renderTag]

/-- C10, as stated, fails when a key occurs twice: for `<a k="1" k="2">` the splitter
yields `a`, `k="1"`, `k="2"`, the keys and values are as the claim asks, and the returned
map sends `k` to `2`, not to the value `1` of its first occurrence. -/
theorem getAttributes_duplicate_key_counterexample :
    (∀ p ∈ [("k".toList, "1".toList), ("k".toList, "2".toList)],
      p.1 ≠ [] ∧ '=' ∉ p.1 ∧ ' ' ∉ p.1 ∧ dquote ∉ p.1 ∧ dquote ∉ p.2) ∧
    splitQuoted (tagBody "a".toList [("k".toList, "1".toList), ("k".toList, "2".toList)]) =
      ["a".toList, attrToken "k".toList "1".toList, attrToken "k".toList "2".toList] ∧
    getAttributes splitQuoted
        (renderTag "a".toList [("k".toList, "1".toList), ("k".toList, "2".toList)]) =
      .ok [("k".toList, "2".toList)] ∧
    mapFind [("k".toList, "2".toList)] "k".toList ≠ some "1".toList :=
  ⟨by decide, rfl, rfl, by decide⟩

/-- C10, amended. For an opening tag `<name k1="v1" ... kn="vn">` whose keys contain no
`=`, given that the splitter yields the tag name followed by one token `ki="vi"` per
attribute, `Parser::getAttributes` returns a map whose keys are exactly k1..kn and that
sends each key to the value of its last occurrence in the tag; when the keys are pairwise
distinct it sends each ki to vi. -/
theorem getAttributes_well_formed (tokenize : Str → List Str) (name : Str)
    (kvs : List (Str × Str)) (hkeys : ∀ p ∈ kvs, '=' ∉ p.1)
    (hsplit : tokenize (tagBody name kvs) = name :: kvs.map (fun p => attrToken p.1 p.2)) :
    ∃ m, getAttributes tokenize (renderTag name kvs) = .ok m ∧
      (∀ key, mapFind m key = lastValue kvs key) ∧
      (∀ key, (mapFind m key).isSome = true ↔ key ∈ kvs.map Prod.fst) ∧
      ((kvs.map Prod.fst).Nodup → ∀ p ∈ kvs, mapFind m p.1 = some p.2) := by
  obtain ⟨m, hm, hfind⟩ := decodePairs_attrTokens kvs [] hkeys
  have hfind2 : ∀ key, mapFind m key = lastValue kvs key := by
    intro key
    rw [hfind key]
    cases lastValue kvs key with
    | some w => rfl
    | none => rfl
  refine ⟨m, ?_, hfind2, ?_, ?_⟩
  · unfold getAttributes
    rw [truncTag_renderTag]
    simp only [bind, Except.bind, hsplit, List.drop_succ_cons, List.drop_zero]
    exact hm
  · intro key
    rw [hfind2 key]
    exact lastValue_isSome_iff kvs key
  · intro hnd p hp
    rw [hfind2 p.1]
    exact lastValue_of_nodup kvs hnd p hp

/-- The tag `<div id="x" class="a b">`: the splitter modelled from the spec yields `div`,
`id="x"`, `class="a b"`, and the decoded map is {id: `x`, class: `a b`}. -/
theorem getAttributes_well_formed_witness :
    splitQuoted (tagBody "div".toList [("id".toList, "x".toList), ("class".toList, "a b".toList)])
      = "div".toList ::
          [("id".toList, "x".toList), ("class".toList, "a b".toList)].map
            (fun p => attrToken p.1 p.2) ∧
    getAttributes splitQuoted
        (renderTag "div".toList [("id".toList, "x".toList), ("class".toList, "a b".toList)]) =
      .ok [("class".toList, "a b".toList), ("id".toList, "x".toList)] ∧
    ∃ m, getAttributes splitQuoted
        (renderTag "div".toList [("id".toList, "x".toList), ("class".toList, "a b".toList)]) =
        .ok m ∧
      mapFind m "id".toList = some "x".toList ∧ mapFind m "class".toList = some "a b".toList := by
  refine ⟨rfl, rfl, ?_⟩
  obtain ⟨m, hm, _, _, hnd⟩ :=
    getAttributes_well_formed splitQuoted "div".toList
      [("id".toList, "x".toList), ("class".toList, "a b".toList)] (by decide) rfl
  exact ⟨m, hm, hnd (by decide) ("id".toList, "x".toList) (by decide),
    hnd (by decide) ("class".toList, "a b".toList) (by decide)⟩

theorem preorder_frame (h1 h2 : Heap) (lo hi : Nat) (hcl : ClosedRange h1 lo hi)
    (hagree : ∀ i, lo ≤ i → i < hi → h2[i]? = h1[i]?) :
    ∀ f k, lo ≤ k → k < hi → preorder h2 f k = preorder h1 f k := by
  intro f
  induction f with
  | zero => intro k _ _; rfl
  | succ f ih =>
    intro k hlo hhi
    obtain ⟨n, hn, hkids⟩ := hcl k hlo hhi
    simp only [preorder, hagree k hlo hhi, hn]
    congr 1
    apply List.flatMap_congr
    intro x hx
    obtain ⟨h1x, h2x⟩ := hkids x hx
    exact ih x (by omega) h2x

theorem preorder_fuel (h : Heap) (lo hi : Nat) (hcl : ClosedRange h lo hi) :
    ∀ f f2 k, lo ≤ k → k < hi → hi ≤ f + k → hi ≤ f2 + k →
      preorder h f k = preorder h f2 k := by
  intro f
  induction f with
  | zero => intro f2 k _ h2 h3 _; omega
  | succ f ih =>
    intro f2 k hlo hhi h3 h4
    cases f2 with
    | zero => omega
    | succ f2 =>
      obtain ⟨n, hn, hkids⟩ := hcl k hlo hhi
      simp only [preorder, hn]
      congr 1
      apply List.flatMap_congr
      intro x hx
      obtain ⟨h1x, h2x⟩ := hkids x hx
      exact ih f2 x (by omega) h2x (by omega) (by omega)

theorem closeTag_eq (b : Builder) (t name : Str) (s : List Str) (c : Nat) (n : Node)
    (hname : getTagName t = .ok name) (hstack : b.stack = name :: s)
    (hnode : b.node = some c) (hn : b.heap[c]? = some n) :
    closeTag b t = .ok { b with node := n.parent, stack := s } := by
  unfold closeTag
  rw [hname]
  simp only [bind, Except.bind, hstack]
  rw [if_neg (by simp)]
  unfold getParent
  rw [hnode, deref_some _ c n hn]
  rfl

theorem isOpeningTag_of_closing (t : Str) (h : isClosingTag t = true) :
    isOpeningTag t = false := by
  simp only [isClosingTag, Bool.and_eq_true, beq_iff_eq] at h
  simp [isOpeningTag, h.1, h.2]

theorem isOpeningTag_of_text (t : Str) (h : isText t = true) : isOpeningTag t = false := by
  simp only [isText, bne_iff_ne] at h
  simp [isOpeningTag, h]

theorem openedState_length (b : Builder) (name : Str) (attrs : AttrMap) (c : Nat) (n : Node) :
    (openedState b name attrs c n).heap.length = b.heap.length + 1 := by
  simp [openedState]

theorem openedState_new (b : Builder) (name : Str) (attrs : AttrMap) (c : Nat) (n : Node) :
    (openedState b name attrs c n).heap[b.heap.length]? =
      some { type := name, innerHTML := [], parent := some c, children := [],
             attributes := attrs } := by
  simp only [openedState]
  rw [List.getElem?_append_right (by simp)]
  simp

theorem openedState_cursor (b : Builder) (name : Str) (attrs : AttrMap) (c : Nat) (n : Node)
    (hc : c < b.heap.length) :
    (openedState b name attrs c n).heap[c]? =
      some { n with children := n.children ++ [b.heap.length] } := by
  simp only [openedState]
  rw [List.getElem?_append_left (by simp; omega), List.getElem?_set]
  simp [hc]

theorem openedState_other (b : Builder) (name : Str) (attrs : AttrMap) (c : Nat) (n : Node)
    (i : Nat) (hi : i < b.heap.length) (hic : i ≠ c) :
    (openedState b name attrs c n).heap[i]? = b.heap[i]? := by
  simp only [openedState]
  rw [List.getElem?_append_left (by simp; omega), List.getElem?_set]
  simp [Ne.symm hic]

/-- The run over a balanced token sequence, from any state outside a comment whose cursor
`c` points to a record `n`: it ends in the same state but for the heap, where only the
record of `c` has changed (new children `ks`, more inner text) and new nodes have been
added after the old ones; the subtrees of `ks`, in pre-order, carry the names of the
opening tags in source order. -/
theorem run_balanced (tokenize : Str → List Str) (tokens : List Str) (hb : Balanced tokens) :
    (∀ t ∈ tokens, isOpeningTag t = true → ∃ m, getAttributes tokenize t = .ok m) →
    ∀ (b : Builder) (c : Nat) (n : Node), b.commentCompleted = true → b.node = some c →
      b.heap[c]? = some n →
      ∃ (heap1 : Heap) (ks : List Nat) (txt : Str) (names : List Str),
        run tokenize tokens b = .ok { b with heap := heap1 } ∧
        b.heap.length ≤ heap1.length ∧
        heap1[c]? = some { n with children := n.children ++ ks,
                                  innerHTML := n.innerHTML ++ txt } ∧
        (∀ i, i < b.heap.length → i ≠ c → heap1[i]? = b.heap[i]?) ∧
        (∀ k ∈ ks, b.heap.length ≤ k ∧ k < heap1.length) ∧
        ClosedRange heap1 b.heap.length heap1.length ∧
        names.map Except.ok = (tokens.filter isOpeningTag).map getTagName ∧
        (∀ f, heap1.length ≤ f + b.heap.length →
          ks.flatMap (fun k => preorder heap1 f k) = names) := by
  induction hb with
  | nil =>
    intro _ b c n _ _ hn
    refine ⟨b.heap, [], [], [], rfl, le_refl _, ?_, fun _ _ _ => rfl, ?_, ?_, rfl, ?_⟩
    · simpa using hn
    · intro k hk
      exact absurd hk (by simp)
    · intro i h1 h2
      omega
    · intro f _
      rfl
  | text t rest ht _ ih =>
    intro hdec b c n hcc hnode hn
    have hcL := lt_length_of_getElem? hn
    have hstep : step tokenize b t =
        .ok { b with heap := b.heap.set c { n with innerHTML := n.innerHTML ++ t } } := by
      rw [step_text tokenize b t ht]
      exact textToken_eq b t c n hcc hnode hn
    obtain ⟨heap1, ks, txt, names, hrun, hlen, hc1, hframe, hks, hcl, hnames, hP⟩ :=
      ih (fun u hu => hdec u (List.mem_cons_of_mem _ hu))
        { b with heap := b.heap.set c { n with innerHTML := n.innerHTML ++ t } } c
        { n with innerHTML := n.innerHTML ++ t } hcc hnode
        (by simp only [List.getElem?_set]; simp [hcL])
    simp only [List.length_set] at hlen hframe hks hcl hP
    refine ⟨heap1, ks, t ++ txt, names, ?_, hlen, ?_, ?_, hks, hcl, ?_, hP⟩
    · simp only [run, hstep]
      exact hrun
    · rw [hc1]
      simp
    · intro i hi hic
      rw [hframe i hi hic, List.getElem?_set]
      simp [Ne.symm hic]
    · rw [hnames]
      simp [List.filter, isOpeningTag_of_text t ht]
  | element o cl body rest ho hc hmatch _ _ ihb ihr =>
    intro hdec b c n hcc hnode hn
    have hcL := lt_length_of_getElem? hn
    obtain ⟨attrs, hattrs⟩ := hdec o (List.mem_cons_self _ _) ho
    obtain ⟨name, hname⟩ := getTagName_ok o (isTag_of_opening o ho)
    have hstep1 : step tokenize b o = .ok (openedState b name attrs c n) := by
      rw [step_opening tokenize b o ho]
      exact openTag_eq tokenize b o name attrs c n hcc hname hattrs hnode hn
    have hlen1 := openedState_length b name attrs c n
    obtain ⟨heap2, ksb, txtb, namesb, hrun2, hlen2, hL2, hframe2, hks2, hcl2, hnames2, hP2⟩ :=
      ihb (fun u hu => hdec u (List.mem_cons_of_mem _ (List.mem_append_left _ hu)))
        (openedState b name attrs c n) b.heap.length
        { type := name, innerHTML := [], parent := some c, children := [],
          attributes := attrs } hcc rfl (openedState_new b name attrs c n)
    rw [hlen1] at hlen2 hframe2 hks2 hcl2 hP2
    simp only [List.nil_append] at hL2
    have hstep3 : step tokenize { openedState b name attrs c n with heap := heap2 } cl =
        .ok { b with heap := heap2 } := by
      rw [step_closing tokenize _ cl hc]
      rw [closeTag_eq { openedState b name attrs c n with heap := heap2 } cl name b.stack
        b.heap.length _ (hmatch ▸ hname) rfl rfl hL2]
      simp only [openedState]
      rw [← hnode]
    have hc2 : heap2[c]? = some { n with children := n.children ++ [b.heap.length] } := by
      rw [hframe2 c (by omega) (by omega)]
      exact openedState_cursor b name attrs c n hcL
    obtain ⟨heap4, ksr, txtr, namesr, hrun4, hlen4, hc4, hframe4, hks4, hcl4, hnames4, hP4⟩ :=
      ihr (fun u hu => hdec u (List.mem_cons_of_mem _
          (List.mem_append_right _ (List.mem_cons_of_mem _ hu))))
        { b with heap := heap2 } c { n with children := n.children ++ [b.heap.length] }
        hcc hnode hc2
    simp only [] at hlen4 hframe4 hks4 hcl4 hP4 hrun4 hc4
    have hagree : ∀ i, b.heap.length ≤ i → i < heap2.length → heap4[i]? = heap2[i]? :=
      fun i h1 h2 => hframe4 i h2 (by omega)
    refine ⟨heap4, b.heap.length :: ksr, txtr, name :: (namesb ++ namesr),
      ?_, by omega, ?_, ?_, ?_, ?_, ?_, ?_⟩
    · simp only [run, hstep1]
      rw [run_append, hrun2]
      simp only [run, hstep3]
      exact hrun4
    · rw [hc4]
      simp
    · intro i hi hic
      rw [hframe4 i (by omega) hic, hframe2 i (by omega) (by omega)]
      exact openedState_other b name attrs c n i hi hic
    · intro k hk
      rcases List.mem_cons.1 hk with rfl | hk
      · omega
      · have := hks4 k hk
        omega
    · intro i h1 h2
      by_cases hi2 : i < heap2.length
      · rw [hagree i h1 hi2]
        by_cases hiL : i = b.heap.length
        · subst hiL
          refine ⟨_, hL2, ?_⟩
          intro k hk
          have := hks2 k hk
          omega
        · obtain ⟨m, hm, hkids⟩ := hcl2 i (by omega) hi2
          refine ⟨m, hm, ?_⟩
          intro k hk
          have := hkids k hk
          omega
      · exact hcl4 i (by omega) h2
    · rw [List.filter_cons_of_pos ho, List.map_cons, List.map_cons, hname,
        List.filter_append, List.filter_cons_of_neg (by rw [isOpeningTag_of_closing cl hc]; simp),
        List.map_append, List.map_append, hnames2, hnames4]
    · intro f hf
      rw [List.flatMap_cons]
      have hfpos : 1 ≤ f := by omega
      obtain ⟨f0, rfl⟩ : ∃ f0, f = f0 + 1 := ⟨f - 1, by omega⟩
      have hL4 : heap4[b.heap.length]? = _ := (hagree _ (le_refl _) (by omega)).trans hL2
      have hnew : preorder heap4 (f0 + 1) b.heap.length =
          name :: ksb.flatMap (fun k => preorder heap4 f0 k) := by
        simp only [preorder, hL4]
      have hbody : ksb.flatMap (fun k => preorder heap4 f0 k) = namesb := by
        rw [← hP2 f0 (by omega)]
        apply List.flatMap_congr
        intro k hk
        have hk2 := hks2 k hk
        exact preorder_frame heap2 heap4 (b.heap.length + 1) heap2.length hcl2
          (fun i h1 h2 => hagree i (by omega) h2) f0 k hk2.1 hk2.2
      have hrest : ksr.flatMap (fun k => preorder heap4 (f0 + 1) k) = namesr := by
        rw [← hP4 heap4.length (by omega)]
        apply List.flatMap_congr
        intro k hk
        have hk4 := hks4 k hk
        exact preorder_fuel heap4 heap2.length heap4.length hcl4 (f0 + 1) heap4.length k
          hk4.1 hk4.2 (by omega) (by omega)
      rw [hnew, hbody, hrest]
      simp

/-- C1, as stated, fails: the tokens `<a b=>`, `</a>` are an opening tag and its matching
closing tag, yet the parse returns no tree: the splitter yields the attribute token `b=`,
and `getAttributes` asks `substr` for position 3 of this string of length 2, which throws
`std::out_of_range`. -/
theorem balanced_parse_counterexample :
    Balanced ["<a b=>".toList, "</a>".toList] ∧
    splitQuoted "a b=".toList = ["a".toList, "b=".toList] ∧
    decodePair [] "b=".toList = .error .outOfRange ∧
    parse splitQuoted ["<a b=>".toList, "</a>".toList] = .error .outOfRange :=
  ⟨Balanced.element "<a b=>".toList "</a>".toList [] [] rfl rfl rfl Balanced.nil Balanced.nil,
    rfl, rfl, rfl⟩

/-- C1, amended. For every token sequence made only of opening tags, closing tags and text
tokens in which every opening tag has a matching, correctly nested closing tag, and in
which the attributes of every opening tag decode (`getAttributes` returns a map), the parse
returns a tree, and the pre-order sequence of the tags of its nodes is `document` followed
by the names of the opening tag tokens in source order. -/
theorem balanced_parse (tokenize : Str → List Str) (tokens : List Str)
    (hb : Balanced tokens)
    (hdec : ∀ t ∈ tokens, isOpeningTag t = true → ∃ m, getAttributes tokenize t = .ok m) :
    ∃ (tree : Tree) (names : List Str), parse tokenize tokens = .ok tree ∧
      tree.tags = "document".toList :: names ∧
      names.map Except.ok = (tokens.filter isOpeningTag).map getTagName := by
  obtain ⟨heap1, ks, txt, names, hrun, hlen, hroot, _, _, _, hnames, hP⟩ :=
    run_balanced tokenize tokens hb hdec Builder.init 0 (Node.new "document".toList) rfl rfl rfl
  refine ⟨{ heap := heap1, root := 0 }, names, ?_, ?_, hnames⟩
  · unfold parse
    rw [hrun]
    rfl
  · have hlen1 : 1 ≤ heap1.length := hlen
    obtain ⟨f0, hf0⟩ : ∃ f0, heap1.length = f0 + 1 := ⟨heap1.length - 1, by omega⟩
    unfold Tree.tags
    simp only [hf0]
    have h0 : heap1[0]? = _ := hroot
    simp only [preorder, h0]
    have hPf := hP f0 (by
      have : Builder.init.heap.length = 1 := rfl
      omega)
    simp only [Node.new, List.nil_append]
    rw [hPf]

/-- The tokens `<a>`, `x`, `<b>`, `</b>`, `</a>`, `<c>`, `</c>` are balanced and their
attributes decode; the tags of the tree are `document`, `a`, `b`, `c`. -/
theorem balanced_parse_witness :
    Balanced ["<a>".toList, "x".toList, "<b>".toList, "</b>".toList, "</a>".toList,
      "<c>".toList, "</c>".toList] ∧
    (∃ tree, parse splitQuoted ["<a>".toList, "x".toList, "<b>".toList, "</b>".toList,
        "</a>".toList, "<c>".toList, "</c>".toList] = .ok tree ∧
      tree.tags = ["document".toList, "a".toList, "b".toList, "c".toList]) ∧
    ∃ (tree : Tree) (names : List Str),
      parse splitQuoted ["<a>".toList, "x".toList, "<b>".toList, "</b>".toList,
        "</a>".toList, "<c>".toList, "</c>".toList] = .ok tree ∧
      tree.tags = "document".toList :: names ∧
      names.map Except.ok =
        (["<a>".toList, "x".toList, "<b>".toList, "</b>".toList, "</a>".toList,
          "<c>".toList, "</c>".toList].filter isOpeningTag).map getTagName := by
  have hbal : Balanced ["<a>".toList, "x".toList, "<b>".toList, "</b>".toList,
      "</a>".toList, "<c>".toList, "</c>".toList] :=
    Balanced.element "<a>".toList "</a>".toList ["x".toList, "<b>".toList, "</b>".toList]
      ["<c>".toList, "</c>".toList] rfl rfl rfl
      (Balanced.text "x".toList _ rfl
        (Balanced.element "<b>".toList "</b>".toList [] [] rfl rfl rfl Balanced.nil
          Balanced.nil))
      (Balanced.element "<c>".toList "</c>".toList [] [] rfl rfl rfl Balanced.nil
        Balanced.nil)
  refine ⟨hbal, ⟨_, rfl, rfl⟩, balanced_parse splitQuoted _ hbal ?_⟩
  intro t ht _
  simp only [List.mem_cons, List.mem_singleton, List.not_mem_nil, or_false] at ht
  rcases ht with rfl | rfl | rfl | rfl | rfl | rfl | rfl <;> exact ⟨_, rfl⟩

/-! ## Malformed attribute tokens -/

theorem substr_error (s : Str) (pos n : Nat) (e : ParseError)
    (h : substr s pos n = .error e) : e = .outOfRange := by
  unfold substr at h
  split at h
  · exact (Except.error.inj h).symm
  · exact absurd h (by simp)

theorem substr_zero (s : Str) (n : Nat) : substr s 0 n = .ok (s.take n) := by
  rw [substr_ok s 0 n (Nat.zero_le _)]
  rfl

theorem take_drop_dropLast (l : Str) (p : Nat) (hp : p ≤ l.length) :
    List.take (toSizeT ((l.length : Int) - (p : Int) - 1)) (List.drop p l) =
      (List.drop p l).dropLast := by
  by_cases hlt : p < l.length
  · have e : ((l.length : Int) - (p : Int) - 1) = ((l.length - p - 1 : Nat) : Int) := by
      omega
    rw [e, toSizeT_natCast, List.dropLast_eq_take, List.length_drop]
  · have hd : List.drop p l = [] := List.drop_of_length_le (by omega)
    rw [hd]
    simp

/-- The decode of one attribute token, in closed form. -/
theorem decodePair_eq (pairs : AttrMap) (token : Str) :
    decodePair pairs token =
      if runsOut token = true then .error .outOfRange
      else if '=' ∈ token then
        .ok (mapAssign pairs (token.take (token.indexOf '='))
          (token.drop (token.indexOf '=' + 2)).dropLast)
      else .ok (mapAssign pairs (token.take (2 ^ 64 - 1)) (token.drop 1).dropLast) := by
  unfold decodePair
  simp only [substr_zero, bind, Except.bind, pure, Except.pure]
  by_cases hmem : '=' ∈ token
  · have hlt : token.indexOf '=' < token.length := List.indexOf_lt_length.2 hmem
    have hf : findFirstOf token '=' = ((token.indexOf '=' : Nat) : Int) := by
      unfold findFirstOf
      rw [if_pos hmem]
    have hne : token ≠ [] := by
      intro h
      rw [h] at hmem
      exact absurd hmem (by simp)
    have hemp : token.isEmpty = false := by
      cases token with
      | nil => exact absurd rfl hne
      | cons _ _ => rfl
    rw [hf]
    have e1 : ((token.indexOf '=' : Nat) : Int) + 2 = ((token.indexOf '=' + 2 : Nat) : Int) := by
      push_cast
      ring
    rw [e1, toSizeT_natCast, toSizeT_natCast]
    by_cases hro : token.indexOf '=' + 1 = token.length
    · have hr : runsOut token = true := by simp [runsOut, hro]
      rw [if_pos hr]
      unfold substr
      rw [if_pos (by omega)]
    · have hr : ¬ runsOut token = true := by simp [runsOut, hemp, hro]
      rw [if_neg hr, if_pos hmem, substr_ok _ _ _ (by omega)]
      simp only []
      have e2 : ((token.length : Int) - ((token.indexOf '=' : Nat) : Int) - 3) =
          ((token.length : Int) - ((token.indexOf '=' + 2 : Nat) : Int) - 1) := by
        push_cast
        ring
      rw [e2, take_drop_dropLast token _ (by omega)]
  · have hf : findFirstOf token '=' = -1 := by
      unfold findFirstOf
      rw [if_neg hmem]
    have hidx : token.indexOf '=' = token.length := List.indexOf_eq_length.2 hmem
    rw [hf]
    have e1 : toSizeT (-1 + 2) = 1 := by decide
    have e0 : toSizeT (-1) = 2 ^ 64 - 1 := by decide
    rw [e1, e0]
    cases htok : token with
    | nil =>
      rw [if_pos (by rfl)]
      rfl
    | cons c rest =>
      rw [← htok]
      have hemp : token.isEmpty = false := by rw [htok]; rfl
      have hr : ¬ runsOut token = true := by simp [runsOut, hemp, hidx]
      rw [if_neg hr, if_neg hmem, substr_ok _ _ _ (by rw [htok]; simp)]
      simp only []
      have e2 : ((token.length : Int) - (-1) - 3) = ((token.length : Int) - ((1 : Nat) : Int) - 1) := by
        push_cast
        ring
      rw [e2, take_drop_dropLast token 1 (by rw [htok]; simp)]

theorem decodePairs_ok_iff (tokens : List Str) (pairs : AttrMap) :
    (∃ m, decodePairs tokens pairs = .ok m) ↔ ∀ t ∈ tokens, runsOut t = false := by
  induction tokens generalizing pairs with
  | nil => simp [decodePairs]
  | cons t ts ih =>
    simp only [decodePairs, decodePair_eq, List.mem_cons, forall_eq_or_imp]
    by_cases hr : runsOut t = true
    · simp [hr]
    · rw [if_neg hr]
      have hf : runsOut t = false := by simpa using hr
      by_cases hmem : '=' ∈ t
      · rw [if_pos hmem]
        simp only [hf, true_and]
        exact ih _
      · rw [if_neg hmem]
        simp only [hf, true_and]
        exact ih _

theorem decodePairs_error (tokens : List Str) (pairs : AttrMap) (e : ParseError)
    (h : decodePairs tokens pairs = .error e) : e = .outOfRange := by
  induction tokens generalizing pairs with
  | nil => simp [decodePairs] at h
  | cons t ts ih =>
    simp only [decodePairs, decodePair_eq] at h
    by_cases hr : runsOut t = true
    · rw [if_pos hr] at h
      exact (Except.error.inj h).symm
    · rw [if_neg hr] at h
      by_cases hmem : '=' ∈ t
      · rw [if_pos hmem] at h
        exact ih _ h
      · rw [if_neg hmem] at h
        exact ih _ h

theorem getAttributes_error (tokenize : Str → List Str) (tag : Str) (e : ParseError)
    (h : getAttributes tokenize tag = .error e) : e = .outOfRange := by
  unfold getAttributes at h
  cases hs : substr tag 1 (toSizeT ((tag.length : Int) - 2)) with
  | error e2 =>
    rw [hs] at h
    have := substr_error _ _ _ _ hs
    subst this
    exact (Except.error.inj h).symm
  | ok tr =>
    rw [hs] at h
    exact decodePairs_error _ _ _ h

theorem getAttributes_eq (tokenize : Str → List Str) (tag : Str) (htag : 1 ≤ tag.length) :
    getAttributes tokenize tag = decodePairs ((tokenize (truncTag tag)).drop 1) [] := by
  unfold getAttributes
  rw [substr_ok tag 1 _ htag]
  rfl

theorem split_at_indexOf (a : Char) (l : Str) (h : a ∈ l) :
    a ∉ l.take (l.indexOf a) ∧ l = l.take (l.indexOf a) ++ a :: l.drop (l.indexOf a + 1) := by
  induction l with
  | nil => exact absurd h (by simp)
  | cons b bs ih =>
    by_cases hb : b = a
    · subst hb
      simp
    · have hmem : a ∈ bs := by
        rcases List.mem_cons.1 h with h1 | h1
        · exact absurd h1.symm hb
        · exact h1
      obtain ⟨i1, i2⟩ := ih hmem
      rw [List.indexOf_cons_ne _ hb]
      constructor
      · simp only [List.take_succ_cons, List.mem_cons, not_or]
        exact ⟨fun h => hb h.symm, i1⟩
      · simp only [List.take_succ_cons, List.drop_succ_cons, List.cons_append]
        rw [← i2]

theorem runsOut_iff (t : Str) :
    runsOut t = true ↔ t = [] ∨ ∃ k, '=' ∉ k ∧ t = k ++ ['='] := by
  constructor
  · intro h
    simp only [runsOut, Bool.or_eq_true, List.isEmpty_iff, beq_iff_eq] at h
    rcases h with h | h
    · exact Or.inl h
    · right
      have hmem : '=' ∈ t := List.indexOf_lt_length.1 (by omega)
      obtain ⟨h1, h2⟩ := split_at_indexOf '=' t hmem
      refine ⟨t.take (t.indexOf '='), h1, ?_⟩
      have hd : t.drop (t.indexOf '=' + 1) = [] := List.drop_of_length_le (by omega)
      rw [hd] at h2
      exact h2
  · rintro (h | ⟨k, hk, h⟩)
    · subst h
      rfl
    · subst h
      simp only [runsOut, Bool.or_eq_true, beq_iff_eq]
      right
      rw [List.indexOf_append_of_not_mem hk]
      simp

/-- C11, as stated, fails: in `<a b>` the attribute token `b` has no `=`, and in
`<a k="v>` the value has no closing quote; in both cases `getAttributes` returns a map
with a guessed entry (`b` with the empty value, `k` with the empty value) and no error. -/
theorem malformed_attribute_counterexample :
    splitQuoted (truncTag "<a b>".toList) = ["a".toList, "b".toList] ∧
    '=' ∉ "b".toList ∧
    getAttributes splitQuoted "<a b>".toList = .ok [("b".toList, [])] ∧
    splitQuoted (truncTag ("<a k=".toList ++ dquote :: "v>".toList)) =
      ["a".toList, "k=".toList ++ dquote :: "v".toList] ∧
    getAttributes splitQuoted ("<a k=".toList ++ dquote :: "v>".toList) =
      .ok [("k".toList, [])] :=
  ⟨rfl, by decide, rfl, rfl, rfl⟩

/-- C11, amended. For a tag of at least one character, `Parser::getAttributes` fails, with
an uncaught `std::out_of_range` and without a mapping, exactly when some attribute token
of the splitter (the tokens after the first) is empty or has its first `=` as its last
character. In every other case it returns a mapping: a token without `=` gives the entry
whose key is the whole token and whose value is the token without its first and last
character, and a token `key="rest` without a closing quote gives `key` with `rest`
without its last character. -/
theorem getAttributes_malformed (tokenize : Str → List Str) (tag : Str)
    (htag : 1 ≤ tag.length) :
    ((∃ m, getAttributes tokenize tag = .ok m) ↔
      ∀ t ∈ (tokenize (truncTag tag)).drop 1, runsOut t = false) ∧
    (getAttributes tokenize tag = .error .outOfRange ↔
      ∃ t ∈ (tokenize (truncTag tag)).drop 1, runsOut t = true) ∧
    (∀ t : Str, runsOut t = true ↔ t = [] ∨ ∃ k, '=' ∉ k ∧ t = k ++ ['=']) ∧
    (∀ (pairs : AttrMap) (token : Str), token ≠ [] → '=' ∉ token → token.length < 2 ^ 64 →
      decodePair pairs token = .ok (mapAssign pairs token (token.drop 1).dropLast)) ∧
    (∀ (pairs : AttrMap) (k v : Str), '=' ∉ k →
      decodePair pairs (k ++ '=' :: dquote :: v) = .ok (mapAssign pairs k v.dropLast)) := by
  have hiff := decodePairs_ok_iff ((tokenize (truncTag tag)).drop 1) []
  rw [← getAttributes_eq tokenize tag htag] at hiff
  refine ⟨hiff, ?_, runsOut_iff, ?_, ?_⟩
  · constructor
    · intro herr
      by_contra hno
      have hall : ∀ t ∈ (tokenize (truncTag tag)).drop 1, runsOut t = false := by
        intro t ht
        cases hr : runsOut t with
        | false => rfl
        | true => exact absurd ⟨t, ht, hr⟩ hno
      obtain ⟨m, hm⟩ := hiff.2 hall
      rw [hm] at herr
      exact absurd herr (by simp)
    · rintro ⟨t, ht, hr⟩
      cases hg : getAttributes tokenize tag with
      | error e =>
        rw [getAttributes_error tokenize tag e hg]
      | ok m =>
        have := hiff.1 ⟨m, hg⟩ t ht
        rw [this] at hr
        exact absurd hr (by simp)
  · intro pairs token hne hmem hlen
    rw [decodePair_eq]
    have hr : ¬ runsOut token = true := by
      rw [runsOut_iff]
      rintro (h | ⟨k, _, h⟩)
      · exact hne h
      · exact hmem (by rw [h]; simp)
    rw [if_neg hr, if_neg hmem, List.take_of_length_le (by omega)]
  · intro pairs k v hk
    rw [decodePair_eq]
    have hmem : '=' ∈ k ++ '=' :: dquote :: v := by simp
    have hidx : (k ++ '=' :: dquote :: v).indexOf '=' = k.length := by
      rw [List.indexOf_append_of_not_mem hk]
      simp
    have hr : ¬ runsOut (k ++ '=' :: dquote :: v) = true := by
      simp [runsOut, hidx]
    rw [if_neg hr, if_pos hmem, hidx]
    have hd : List.drop (k.length + 2) (k ++ '=' :: dquote :: v) = v := by
      rw [List.drop_append_eq_append_drop, List.drop_of_length_le (by omega)]
      simp
    rw [hd]
    simp

/-- The tags `<a b=>` (the attribute token `b=` runs out of range) and `<a b>` (decodes,
with a guessed entry). -/
theorem getAttributes_malformed_witness :
    1 ≤ "<a b=>".toList.length ∧
    getAttributes splitQuoted "<a b=>".toList = .error .outOfRange ∧
    ∃ m, getAttributes splitQuoted "<a b>".toList = .ok m :=
  ⟨by decide,
    ((getAttributes_malformed splitQuoted "<a b=>".toList (by decide)).2.1).2
      ⟨"b=".toList, (by show _ ∈ ["b=".toList]; exact List.mem_singleton.2 rfl), rfl⟩,
    ((getAttributes_malformed splitQuoted "<a b>".toList (by decide)).1).2
      (by
        show ∀ t ∈ ["b".toList], runsOut t = false
        intro t ht
        rw [List.mem_singleton.1 ht]
        rfl)⟩

/-! ## Comments and declarations -/

theorem step_inside_comment (tokenize : Str → List Str) (b : Builder) (token : Str)
    (hcc : b.commentCompleted = false) (hend : endsWith token "-->".toList = false)
    (hclose : isClosingTag token = false) : step tokenize b token = .ok b := by
  by_cases h0 : charAt token 0 = '<'
  · have h1 : charAt token 1 ≠ '/' := by
      intro h1
      simp [isClosingTag, h0, h1] at hclose
    by_cases h2 : charAt token 1 = '!'
    · rw [step_bang tokenize b token (by simp [isBangTag, h0, h1, h2])]
      unfold commentTag
      rw [substr_ok token 2 2 (length_two_of_charAt_one token '!' (by decide) h2)]
      simp only [bind, Except.bind, hend, pure, Except.pure]
      cases b
      simp only [] at hcc
      subst hcc
      split <;> rfl
    · rw [step_opening tokenize b token (by simp [isOpeningTag, h0, h1, h2])]
      unfold openTag
      rw [if_neg (by rw [hcc]; exact Bool.false_ne_true),
        if_neg (by rw [hend]; exact Bool.false_ne_true)]
      rfl
  · rw [step_text tokenize b token (by simp [isText, h0])]
    unfold textToken
    rw [if_neg (by rw [hcc]; exact Bool.false_ne_true)]
    rfl

theorem isBangTag_of_comment (token : Str) (h : token.take 4 = "<!--".toList) :
    isBangTag token = true ∧ isClosingTag token = false := by
  match token, h with
  | c0 :: c1 :: c2 :: c3 :: rest, h =>
    simp only [List.take, String.toList] at h
    injection h with e0 h
    injection h with e1 h
    subst e0 e1
    exact ⟨rfl, rfl⟩

/-- C15. No nested comments: while a comment is open, a token that begins with `<!--` and
does not end with `-->` leaves the whole builder state unchanged; so a run of any number
of such tokens returns the same state, whatever follows is processed as if they were not
there, and a token that closes the span from that state still closes it after them. -/
theorem no_nested_comments (tokenize : Str → List Str) (b : Builder) (openers : List Str)
    (hcc : b.commentCompleted = false)
    (hop : ∀ t ∈ openers, t.take 4 = "<!--".toList ∧ endsWith t "-->".toList = false) :
    (∀ t ∈ openers, step tokenize b t = .ok b) ∧
    run tokenize openers b = .ok b ∧
    (∀ (closer : Str) (rest : List Str),
      run tokenize (openers ++ closer :: rest) b = run tokenize (closer :: rest) b) ∧
    (∀ closer : Str, step tokenize b closer = .ok { b with commentCompleted := true } →
      run tokenize (openers ++ [closer]) b = .ok { b with commentCompleted := true }) := by
  have hstep : ∀ t ∈ openers, step tokenize b t = .ok b := fun t ht =>
    step_inside_comment tokenize b t hcc (hop t ht).2 (isBangTag_of_comment t (hop t ht).1).2
  have hrun : run tokenize openers b = .ok b := by
    induction openers with
    | nil => rfl
    | cons t ts ih =>
      simp only [run, hstep t (List.mem_cons_self _ _)]
      exact ih (fun u hu => hop u (List.mem_cons_of_mem _ hu))
        (fun u hu => hstep u (List.mem_cons_of_mem _ hu))
  refine ⟨hstep, hrun, ?_, ?_⟩
  · intro closer rest
    rw [run_append, hrun]
  · intro closer hclose
    rw [run_append, hrun]
    simp only [run, hclose]

/-- With the comment of `insideCommentA` open, two more `<!--` tokens change nothing, and
the token `<i -->` after them closes the comment. -/
theorem no_nested_comments_witness :
    insideCommentA.commentCompleted = false ∧
    run splitQuoted ["<!--".toList, "<!-- again".toList] insideCommentA = .ok insideCommentA ∧
    run splitQuoted (["<!--".toList, "<!-- again".toList] ++ ["<i -->".toList]) insideCommentA =
      .ok afterOpenA :=
  ⟨rfl,
    (no_nested_comments splitQuoted insideCommentA ["<!--".toList, "<!-- again".toList] rfl
      (by
        intro t ht
        simp only [List.mem_cons, List.mem_singleton, List.not_mem_nil, or_false] at ht
        rcases ht with rfl | rfl <;> exact ⟨rfl, rfl⟩)).2.1,
    rfl⟩

/-- C18. Declaration tokens are inert: a token that begins with `<!` but not with `<!--`
leaves the whole builder state unchanged, whether a comment is open or not and whether
the token ends in `-->` or not. -/
theorem declaration_token_inert (tokenize : Str → List Str) (b : Builder) (token : Str)
    (h0 : charAt token 0 = '<') (h1 : charAt token 1 = '!')
    (hnot : token.take 4 ≠ "<!--".toList) : step tokenize b token = .ok b := by
  rw [step_bang tokenize b token (by simp [isBangTag, h0, h1])]
  unfold commentTag
  rw [substr_ok token 2 2 (length_two_of_charAt_one token '!' (by decide) h1)]
  simp only [bind, Except.bind]
  have hd : ¬ List.take 2 (List.drop 2 token) = "--".toList := by
    intro hd
    apply hnot
    match token, h0, h1, hd with
    | c0 :: c1 :: c2 :: c3 :: rest, h0, h1, hd =>
      have e0 : c0 = '<' := h0
      have e1 : c1 = '!' := h1
      simp only [List.drop, List.take, String.toList] at hd
      injection hd with e2 hd
      injection hd with e3 _
      subst e0 e1 e2 e3
      rfl
  rw [if_neg hd]
  rfl

/-- The declaration `<!DOCTYPE html>` outside a comment and the token `<!x-->` inside one:
both leave the state as it is. -/
theorem declaration_token_inert_witness :
    step splitQuoted afterOpenA "<!DOCTYPE html>".toList = .ok afterOpenA ∧
    endsWith "<!x-->".toList "-->".toList = true ∧
    step splitQuoted insideCommentA "<!x-->".toList = .ok insideCommentA :=
  ⟨declaration_token_inert splitQuoted afterOpenA "<!DOCTYPE html>".toList rfl rfl (by decide),
    rfl,
    declaration_token_inert splitQuoted insideCommentA "<!x-->".toList rfl rfl (by decide)⟩

/-! ## The links between the nodes along a run -/

theorem ancestorTags_fuel (heap : Heap)
    (hbelow : ∀ (i : Nat) (n : Node) (p : Nat), heap[i]? = some n → n.parent = some p → p < i) :
    ∀ f f2 i, i ≤ f → i ≤ f2 → ancestorTags heap f i = ancestorTags heap f2 i := by
  have hzero : ∀ f, ancestorTags heap f 0 = [] := by
    intro f
    cases f with
    | zero => rfl
    | succ f =>
      simp only [ancestorTags]
      cases h0 : heap[0]? with
      | none => rfl
      | some n =>
        dsimp only
        cases hp : n.parent with
        | none => rfl
        | some p => exact absurd (hbelow 0 n p h0 hp) (by omega)
  intro f
  induction f with
  | zero =>
    intro f2 i hi _
    have : i = 0 := by omega
    subst this
    rw [hzero, hzero]
  | succ f ih =>
    intro f2 i hi hi2
    cases f2 with
    | zero =>
      have : i = 0 := by omega
      subst this
      rw [hzero, hzero]
    | succ f2 =>
      simp only [ancestorTags]
      cases h0 : heap[i]? with
      | none => rfl
      | some n =>
        dsimp only
        cases hp : n.parent with
        | none => rfl
        | some p =>
          have := hbelow i n p h0 hp
          dsimp only
          rw [ih f2 p (by omega) (by omega)]

theorem ancestorTags_frame (heap heap2 : Heap)
    (hbelow : ∀ (i : Nat) (n : Node) (p : Nat), heap[i]? = some n → n.parent = some p → p < i)
    (hsame : ∀ (i : Nat) (n : Node), heap[i]? = some n →
      ∃ n2 : Node, heap2[i]? = some n2 ∧ n2.type = n.type ∧ n2.parent = n.parent) :
    ∀ f i, i < heap.length → ancestorTags heap2 f i = ancestorTags heap f i := by
  intro f
  induction f with
  | zero => intro i _; rfl
  | succ f ih =>
    intro i hi
    obtain ⟨n, hn⟩ : ∃ n, heap[i]? = some n := ⟨heap[i], List.getElem?_eq_getElem hi⟩
    obtain ⟨n2, hn2, ht, hp⟩ := hsame i n hn
    simp only [ancestorTags, hn, hn2, hp, ht]
    cases hpar : n.parent with
    | none => rfl
    | some p =>
      have hlt := hbelow i n p hn hpar
      simp only []
      rw [ih p (by omega)]

theorem WellLinked.parents_below {b : Builder} (w : WellLinked b) :
    ∀ (i : Nat) (n : Node) (p : Nat), b.heap[i]? = some n → n.parent = some p → p < i := by
  intro i n p hn hp
  by_cases hi : i = 0
  · subst hi
    obtain ⟨r, hr, _, hrp⟩ := w.root_node
    rw [hr] at hn
    cases hn
    rw [hrp] at hp
    exact absurd hp (by simp)
  · obtain ⟨p2, _, hp2, hlt, _, _⟩ := w.parent_link i n hn hi
    rw [hp2] at hp
    cases hp
    exact hlt

theorem wellLinked_init : WellLinked Builder.init := by
  refine ⟨rfl, ⟨_, rfl, rfl, rfl⟩, ⟨0, rfl, by decide, rfl⟩, ?_, ?_⟩
  · intro i n hn hi
    cases i with
    | zero => exact absurd rfl hi
    | succ k => exact absurd hn (by simp [Builder.init])
  · intro p pn k hp hk
    cases p with
    | zero =>
      simp only [Builder.init, List.getElem?_cons_zero, Option.some.injEq] at hp
      subst hp
      exact absurd hk (by simp [Node.new])
    | succ q => exact absurd hp (by simp [Builder.init])

theorem wellLinked_flag (b : Builder) (x : Bool) (w : WellLinked b) :
    WellLinked { b with commentCompleted := x } :=
  ⟨w.root_eq, w.root_node, w.cursor, w.parent_link, w.child_link⟩

/-- Replacing the record of a node by one with the same tag, parent and children keeps
the links. -/
theorem wellLinked_set (b : Builder) (c : Nat) (n m : Node) (w : WellLinked b)
    (hn : b.heap[c]? = some n) (ht : m.type = n.type) (hp : m.parent = n.parent)
    (hk : m.children = n.children) :
    WellLinked { b with heap := b.heap.set c m } := by
  have hc := lt_length_of_getElem? hn
  have hget : ∀ (i : Nat) (x : Node), (b.heap.set c m)[i]? = some x →
      ∃ y : Node, b.heap[i]? = some y ∧ x.type = y.type ∧ x.parent = y.parent ∧
        x.children = y.children := by
    intro i x hx
    rw [List.getElem?_set] at hx
    by_cases hci : c = i
    · subst hci
      simp only [if_true, hc] at hx
      cases hx
      exact ⟨n, hn, ht, hp, hk⟩
    · rw [if_neg hci] at hx
      exact ⟨x, hx, rfl, rfl, rfl⟩
  have hget2 : ∀ (i : Nat) (y : Node), b.heap[i]? = some y →
      ∃ x : Node, (b.heap.set c m)[i]? = some x ∧ x.type = y.type ∧ x.parent = y.parent ∧
        x.children = y.children := by
    intro i y hy
    rw [List.getElem?_set]
    by_cases hci : c = i
    · subst hci
      rw [hn] at hy
      cases hy
      simp only [if_true, hc]
      exact ⟨m, rfl, ht, hp, hk⟩
    · rw [if_neg hci]
      exact ⟨y, hy, rfl, rfl, rfl⟩
  refine ⟨w.root_eq, ?_, ?_, ?_, ?_⟩
  · obtain ⟨r, hr, hrt, hrp⟩ := w.root_node
    obtain ⟨x, hx, hxt, hxp, _⟩ := hget2 0 r hr
    exact ⟨x, hx, hxt.trans hrt, hxp.trans hrp⟩
  · obtain ⟨c2, hc2, hlt, hst⟩ := w.cursor
    refine ⟨c2, hc2, by simpa using hlt, ?_⟩
    show b.stack = ancestorTags (b.heap.set c m) (b.heap.set c m).length c2
    rw [List.length_set, hst]
    exact (ancestorTags_frame b.heap (b.heap.set c m) w.parents_below
      (fun i y hy => by
        obtain ⟨x, hx, hxt, hxp, _⟩ := hget2 i y hy
        exact ⟨x, hx, hxt, hxp⟩) _ c2 hlt).symm
  · intro i x hx hi
    obtain ⟨y, hy, _, hyp, _⟩ := hget i x hx
    obtain ⟨p, pn, hpar, hlt, hpn, hcount⟩ := w.parent_link i y hy hi
    obtain ⟨pm, hpm, _, _, hpk⟩ := hget2 p pn hpn
    exact ⟨p, pm, hyp.trans hpar, hlt, hpm, by rw [hpk]; exact hcount⟩
  · intro p x k hx hkx
    obtain ⟨y, hy, _, _, hyk⟩ := hget p x hx
    obtain ⟨kn, hkn, hkp⟩ := w.child_link p y k hy (by rw [← hyk]; exact hkx)
    obtain ⟨km, hkm, _, hkmp, _⟩ := hget2 k kn hkn
    exact ⟨km, hkm, hkmp.trans hkp⟩

theorem wellLinked_open (b : Builder) (name : Str) (attrs : AttrMap) (c : Nat) (n : Node)
    (w : WellLinked b) (hnode : b.node = some c) (hn : b.heap[c]? = some n) :
    WellLinked (openedState b name attrs c n) := by
  have hc := lt_length_of_getElem? hn
  have hlen := openedState_length b name attrs c n
  have hfwd : ∀ (i : Nat) (y : Node), b.heap[i]? = some y →
      ∃ x : Node, (openedState b name attrs c n).heap[i]? = some x ∧ x.type = y.type ∧
        x.parent = y.parent ∧
        x.children = if i = c then y.children ++ [b.heap.length] else y.children := by
    intro i y hy
    have hi := lt_length_of_getElem? hy
    by_cases hic : i = c
    · subst hic
      rw [hn] at hy
      cases hy
      exact ⟨_, openedState_cursor b name attrs i n hc, rfl, rfl, by simp⟩
    · refine ⟨y, ?_, rfl, rfl, by simp [hic]⟩
      rw [openedState_other b name attrs c n i hi hic]
      exact hy
  have hbwd : ∀ (i : Nat) (x : Node), (openedState b name attrs c n).heap[i]? = some x →
      (i = b.heap.length ∧ x =
        { type := name, innerHTML := [], parent := some c, children := [],
          attributes := attrs }) ∨
      (i < b.heap.length ∧ ∃ y : Node, b.heap[i]? = some y ∧ x.type = y.type ∧
        x.parent = y.parent ∧
        x.children = if i = c then y.children ++ [b.heap.length] else y.children) := by
    intro i x hx
    have hi := lt_length_of_getElem? hx
    rw [hlen] at hi
    by_cases hiL : i = b.heap.length
    · left
      subst hiL
      rw [openedState_new] at hx
      exact ⟨rfl, (Option.some.inj hx).symm⟩
    · right
      have hi2 : i < b.heap.length := by omega
      refine ⟨hi2, ?_⟩
      obtain ⟨y, hy⟩ : ∃ y, b.heap[i]? = some y := ⟨b.heap[i], List.getElem?_eq_getElem hi2⟩
      obtain ⟨x2, hx2, h1, h2, h3⟩ := hfwd i y hy
      rw [hx] at hx2
      cases hx2
      exact ⟨y, hy, h1, h2, h3⟩
  have hkids : ∀ (p : Nat) (pn : Node), b.heap[p]? = some pn → b.heap.length ∉ pn.children := by
    intro p pn hp hmem
    obtain ⟨kn, hkn, _⟩ := w.child_link p pn _ hp hmem
    exact absurd (lt_length_of_getElem? hkn) (by omega)
  refine ⟨w.root_eq, ?_, ?_, ?_, ?_⟩
  · obtain ⟨r, hr, hrt, hrp⟩ := w.root_node
    obtain ⟨x, hx, hxt, hxp, _⟩ := hfwd 0 r hr
    exact ⟨x, hx, hxt.trans hrt, hxp.trans hrp⟩
  · obtain ⟨c2, hc2, _, hst⟩ := w.cursor
    rw [hnode] at hc2
    cases hc2
    refine ⟨b.heap.length, rfl, by rw [hlen]; omega, ?_⟩
    rw [hlen]
    show name :: b.stack = _
    simp only [ancestorTags, openedState_new]
    rw [ancestorTags_frame b.heap (openedState b name attrs c n).heap w.parents_below
      (fun i y hy => by
        obtain ⟨x, hx, hxt, hxp, _⟩ := hfwd i y hy
        exact ⟨x, hx, hxt, hxp⟩) _ c hc, ← hst]
  · intro i x hx hi
    rcases hbwd i x hx with ⟨hiL, hxn⟩ | ⟨hiL, y, hy, _, hyp, _⟩
    · subst hiL hxn
      refine ⟨c, _, rfl, hc, openedState_cursor b name attrs c n hc, ?_⟩
      simp only [List.count_append]
      rw [List.count_eq_zero.2 (hkids c n hn)]
      simp
    · obtain ⟨p, pn, hpar, hlt, hpn, hcount⟩ := w.parent_link i y hy hi
      obtain ⟨pm, hpm, _, _, hpk⟩ := hfwd p pn hpn
      refine ⟨p, pm, hyp.trans hpar, hlt, hpm, ?_⟩
      rw [hpk]
      by_cases hpc : p = c
      · rw [if_pos hpc, List.count_append, hcount]
        have : i ≠ b.heap.length := by omega
        simp [this]
      · rw [if_neg hpc]
        exact hcount
  · intro p x k hx hk
    rcases hbwd p x hx with ⟨_, hxn⟩ | ⟨_, y, hy, _, _, hyk⟩
    · subst hxn
      exact absurd hk (by simp)
    · rw [hyk] at hk
      have hcase : k ∈ y.children ∨ (p = c ∧ k = b.heap.length) := by
        by_cases hpc : p = c
        · rw [if_pos hpc] at hk
          rcases List.mem_append.1 hk with h | h
          · exact Or.inl h
          · exact Or.inr ⟨hpc, List.mem_singleton.1 h⟩
        · rw [if_neg hpc] at hk
          exact Or.inl hk
      rcases hcase with h | ⟨hpc, hkL⟩
      · obtain ⟨kn, hkn, hkp⟩ := w.child_link p y k hy h
        obtain ⟨km, hkm, _, hkmp, _⟩ := hfwd k kn hkn
        exact ⟨km, hkm, hkmp.trans hkp⟩
      · subst hpc hkL
        exact ⟨_, openedState_new b name attrs p n, rfl⟩

theorem wellLinked_close (b : Builder) (c : Nat) (n : Node) (w : WellLinked b)
    (hnode : b.node = some c) (hn : b.heap[c]? = some n) (hstack : b.stack ≠ []) :
    c ≠ 0 ∧ ∃ p : Nat, n.parent = some p ∧ p < c ∧
      WellLinked { b with node := n.parent, stack := b.stack.tail } := by
  obtain ⟨c2, hc2, hlt, hst⟩ := w.cursor
  rw [hnode] at hc2
  cases hc2
  obtain ⟨L0, hL0⟩ : ∃ L0, b.heap.length = L0 + 1 := ⟨b.heap.length - 1, by omega⟩
  rw [hL0] at hst
  simp only [ancestorTags, hn] at hst
  cases hp : n.parent with
  | none =>
    rw [hp] at hst
    exact absurd hst hstack
  | some p =>
    rw [hp] at hst
    simp only [] at hst
    have hpc := w.parents_below c n p hn hp
    have hc0 : c ≠ 0 := by omega
    refine ⟨hc0, p, rfl, hpc, w.root_eq, w.root_node, ?_, w.parent_link, w.child_link⟩
    refine ⟨p, rfl, (by show p < b.heap.length; omega), ?_⟩
    show b.stack.tail = ancestorTags b.heap b.heap.length p
    rw [hst, List.tail_cons]
    exact ancestorTags_fuel b.heap w.parents_below L0 b.heap.length p (by omega) (by omega)

theorem getTagName_error (t : Str) (e : ParseError) (h : getTagName t = .error e) :
    e = .outOfRange := by
  unfold getTagName at h
  cases h1 : substr t 0 2 with
  | error e1 =>
    rw [h1] at h
    have := substr_error _ _ _ _ h1
    subst this
    exact (Except.error.inj h).symm
  | ok hd =>
    rw [h1] at h
    exact substr_error _ _ _ _ h

/-- The closing tag branch, in closed form, for a cursor that points to a node. -/
theorem closeTag_closed (b : Builder) (t : Str) (c : Nat) (n : Node)
    (hnode : b.node = some c) (hn : b.heap[c]? = some n) :
    closeTag b t =
      match getTagName t with
      | .error e => .error e
      | .ok name =>
        if (b.stack.isEmpty || b.stack.head? != some name) = true then
          .error (.strayTag name)
        else .ok { b with node := n.parent, stack := b.stack.tail } := by
  unfold closeTag
  cases hname : getTagName t with
  | error e => rfl
  | ok name =>
    simp only [bind, Except.bind]
    split
    · rfl
    · unfold getParent
      rw [hnode, deref_some _ c n hn]
      rfl

/-- The branch of a token that begins with `<!` changes at most the comment flag. -/
theorem commentTag_closed (b : Builder) (t : Str) :
    (∃ e, commentTag b t = .error e ∧ e = .outOfRange) ∨
    ∃ x, commentTag b t = .ok { b with commentCompleted := x } := by
  unfold commentTag
  cases h1 : substr t 2 2 with
  | error e =>
    left
    exact ⟨e, rfl, substr_error _ _ _ _ h1⟩
  | ok d =>
    right
    simp only [bind, Except.bind, pure, Except.pure]
    split
    · split
      · exact ⟨true, rfl⟩
      · exact ⟨false, rfl⟩
    · exact ⟨b.commentCompleted, rfl⟩

/-- The opening tag branch outside a comment, in closed form, for a cursor that points to
a node. -/
theorem openTag_closed (tokenize : Str → List Str) (b : Builder) (t : Str) (c : Nat)
    (n : Node) (hcc : b.commentCompleted = true) (hnode : b.node = some c)
    (hn : b.heap[c]? = some n) :
    openTag tokenize b t =
      match getTagName t with
      | .error e => .error e
      | .ok name =>
        match getAttributes tokenize t with
        | .error e => .error e
        | .ok attrs => .ok (openedState b name attrs c n) := by
  cases hname : getTagName t with
  | error e =>
    unfold openTag
    rw [if_pos hcc, hname]
    rfl
  | ok name =>
    cases hattrs : getAttributes tokenize t with
    | ok attrs => exact openTag_eq tokenize b t name attrs c n hcc hname hattrs hnode hn
    | error e =>
      unfold openTag
      rw [if_pos hcc, hname]
      simp only [bind, Except.bind, allocNode, hnode]
      rw [appendChild_fresh b.heap c n name hn, hattrs]

theorem openTag_comment (tokenize : Str → List Str) (b : Builder) (t : Str)
    (hcc : b.commentCompleted = false) :
    ∃ x, openTag tokenize b t = .ok { b with commentCompleted := x } := by
  unfold openTag
  rw [if_neg (by rw [hcc]; exact Bool.false_ne_true)]
  split
  · exact ⟨true, rfl⟩
  · exact ⟨b.commentCompleted, rfl⟩

theorem textToken_comment (b : Builder) (t : Str) (hcc : b.commentCompleted = false) :
    textToken b t = .ok b := by
  unfold textToken
  rw [if_neg (by rw [hcc]; exact Bool.false_ne_true)]
  rfl

/-- One iteration keeps the links. -/
theorem step_wellLinked (tokenize : Str → List Str) (b b1 : Builder) (t : Str)
    (w : WellLinked b) (h : step tokenize b t = .ok b1) : WellLinked b1 := by
  obtain ⟨c, hnode, hc, _⟩ := w.cursor
  obtain ⟨n, hn⟩ : ∃ n, b.heap[c]? = some n := ⟨b.heap[c], List.getElem?_eq_getElem hc⟩
  unfold step at h
  split at h
  · split at h
    · rw [closeTag_closed b t c n hnode hn] at h
      cases hname : getTagName t with
      | error e => rw [hname] at h; exact absurd h (by simp)
      | ok name =>
        rw [hname] at h
        simp only [] at h
        split at h
        · exact absurd h (by simp)
        · rename_i hstray
          have hne : b.stack ≠ [] := by
            intro hs
            apply hstray
            simp [hs]
          obtain ⟨_, _, _, _, w1⟩ := wellLinked_close b c n w hnode hn hne
          rw [← Except.ok.inj h]
          exact w1
    · split at h
      · rcases commentTag_closed b t with ⟨e, he, _⟩ | ⟨x, hx⟩
        · rw [he] at h
          exact absurd h (by simp)
        · rw [hx] at h
          rw [← Except.ok.inj h]
          exact wellLinked_flag b x w
      · cases hcc : b.commentCompleted with
        | true =>
          rw [openTag_closed tokenize b t c n hcc hnode hn] at h
          cases hname : getTagName t with
          | error e => rw [hname] at h; exact absurd h (by simp)
          | ok name =>
            rw [hname] at h
            simp only [] at h
            cases hattrs : getAttributes tokenize t with
            | error e => rw [hattrs] at h; exact absurd h (by simp)
            | ok attrs =>
              rw [hattrs] at h
              rw [← Except.ok.inj h]
              exact wellLinked_open b name attrs c n w hnode hn
        | false =>
          obtain ⟨x, hx⟩ := openTag_comment tokenize b t hcc
          rw [hx] at h
          rw [← Except.ok.inj h]
          exact wellLinked_flag b x w
  · cases hcc : b.commentCompleted with
    | true =>
      rw [textToken_eq b t c n hcc hnode hn] at h
      rw [← Except.ok.inj h]
      exact wellLinked_set b c n _ w hn rfl rfl rfl
    | false =>
      rw [textToken_comment b t hcc] at h
      rw [← Except.ok.inj h]
      exact w

theorem run_wellLinked (tokenize : Str → List Str) (tokens : List Str) (b b1 : Builder)
    (w : WellLinked b) (h : run tokenize tokens b = .ok b1) : WellLinked b1 := by
  induction tokens generalizing b with
  | nil =>
    simp only [run, Except.ok.injEq] at h
    subst h
    exact w
  | cons t ts ih =>
    simp only [run] at h
    cases hs : step tokenize b t with
    | error e => simp [hs] at h
    | ok b2 =>
      simp only [hs] at h
      exact ih b2 (step_wellLinked tokenize b b2 t w hs) h

/-- From a state with sound links, one iteration ends in a state, in the stray-tag exit
or in an uncaught `std::out_of_range`: never in the use of a null pointer. -/
theorem step_error (tokenize : Str → List Str) (b : Builder) (t : Str) (e : ParseError)
    (w : WellLinked b) (h : step tokenize b t = .error e) :
    e = .outOfRange ∨ ∃ name, e = .strayTag name := by
  obtain ⟨c, hnode, hc, _⟩ := w.cursor
  obtain ⟨n, hn⟩ : ∃ n, b.heap[c]? = some n := ⟨b.heap[c], List.getElem?_eq_getElem hc⟩
  unfold step at h
  split at h
  · split at h
    · rw [closeTag_closed b t c n hnode hn] at h
      cases hname : getTagName t with
      | error e2 =>
        rw [hname] at h
        left
        rw [← Except.error.inj h]
        exact getTagName_error t e2 hname
      | ok name =>
        rw [hname] at h
        simp only [] at h
        split at h
        · right
          exact ⟨name, (Except.error.inj h).symm⟩
        · exact absurd h (by simp)
    · split at h
      · rcases commentTag_closed b t with ⟨e2, he, heq⟩ | ⟨x, hx⟩
        · rw [he] at h
          left
          rw [← Except.error.inj h]
          exact heq
        · rw [hx] at h
          exact absurd h (by simp)
      · cases hcc : b.commentCompleted with
        | true =>
          rw [openTag_closed tokenize b t c n hcc hnode hn] at h
          cases hname : getTagName t with
          | error e2 =>
            rw [hname] at h
            left
            rw [← Except.error.inj h]
            exact getTagName_error t e2 hname
          | ok name =>
            rw [hname] at h
            simp only [] at h
            cases hattrs : getAttributes tokenize t with
            | error e2 =>
              rw [hattrs] at h
              left
              rw [← Except.error.inj h]
              exact getAttributes_error tokenize t e2 hattrs
            | ok attrs =>
              rw [hattrs] at h
              exact absurd h (by simp)
        | false =>
          obtain ⟨x, hx⟩ := openTag_comment tokenize b t hcc
          rw [hx] at h
          exact absurd h (by simp)
  · cases hcc : b.commentCompleted with
    | true =>
      rw [textToken_eq b t c n hcc hnode hn] at h
      exact absurd h (by simp)
    | false =>
      rw [textToken_comment b t hcc] at h
      exact absurd h (by simp)

theorem run_error (tokenize : Str → List Str) (tokens : List Str) (b : Builder)
    (e : ParseError) (w : WellLinked b) (h : run tokenize tokens b = .error e) :
    e = .outOfRange ∨ ∃ name, e = .strayTag name := by
  induction tokens generalizing b with
  | nil => exact absurd h (by simp [run])
  | cons t ts ih =>
    simp only [run] at h
    cases hs : step tokenize b t with
    | error e2 =>
      rw [hs] at h
      rw [← Except.error.inj h]
      exact step_error tokenize b t e2 w hs
    | ok b2 =>
      rw [hs] at h
      exact ih b2 (step_wellLinked tokenize b b2 t w hs) h

theorem wellLinked_cursor_node {b : Builder} (w : WellLinked b) :
    ∃ (c : Nat) (n : Node), b.node = some c ∧ b.heap[c]? = some n := by
  obtain ⟨c, hnode, hc, _⟩ := w.cursor
  exact ⟨c, b.heap[c], hnode, List.getElem?_eq_getElem hc⟩

theorem wellLinked_parent_none_iff {b : Builder} (w : WellLinked b) (i : Nat) (n : Node)
    (hn : b.heap[i]? = some n) : n.parent = none ↔ i = b.root := by
  rw [w.root_eq]
  constructor
  · intro hp
    by_contra hi
    obtain ⟨p, _, hpar, _, _, _⟩ := w.parent_link i n hn hi
    rw [hp] at hpar
    exact absurd hpar (by simp)
  · intro hi
    subst hi
    obtain ⟨r, hr, _, hrp⟩ := w.root_node
    rw [hr] at hn
    cases hn
    exact hrp

/-- C12. Root and parent-link invariant: in every tree that the parse returns, the root
is a node tagged `document` without a parent, and it is the only node without a parent;
every other node has a parent, the children of that parent hold the node exactly once,
and no other node holds it among its children. -/
theorem root_and_parent_links (tokenize : Str → List Str) (tokens : List Str) (tree : Tree)
    (h : parse tokenize tokens = .ok tree) :
    (∃ r : Node, tree.heap[tree.root]? = some r ∧ r.type = "document".toList ∧
      r.parent = none) ∧
    (∀ (i : Nat) (n : Node), tree.heap[i]? = some n → n.parent = none → i = tree.root) ∧
    (∀ (i : Nat) (n : Node), tree.heap[i]? = some n → i ≠ tree.root →
      ∃ (p : Nat) (pn : Node), n.parent = some p ∧ tree.heap[p]? = some pn ∧
        pn.children.count i = 1 ∧
        ∀ (q : Nat) (qn : Node), tree.heap[q]? = some qn → i ∈ qn.children → q = p) := by
  unfold parse at h
  cases hr : run tokenize tokens Builder.init with
  | error e => simp [hr] at h
  | ok b =>
    simp only [hr] at h
    unfold finish at h
    split at h
    · have w := run_wellLinked tokenize tokens Builder.init b wellLinked_init hr
      rw [← Except.ok.inj h]
      refine ⟨?_, ?_, ?_⟩
      · obtain ⟨r, hr0, hrt, hrp⟩ := w.root_node
        refine ⟨r, ?_, hrt, hrp⟩
        show b.heap[b.root]? = some r
        rw [w.root_eq]
        exact hr0
      · intro i n hn hp
        exact (wellLinked_parent_none_iff w i n hn).1 hp
      · intro i n hn hi
        have hi0 : i ≠ 0 := by
          intro h0
          apply hi
          show i = b.root
          rw [w.root_eq]
          exact h0
        obtain ⟨p, pn, hpar, _, hpn, hcount⟩ := w.parent_link i n hn hi0
        refine ⟨p, pn, hpar, hpn, hcount, ?_⟩
        intro q qn hq hmem
        obtain ⟨kn, hkn, hkp⟩ := w.child_link q qn i hq hmem
        have hn2 : b.heap[i]? = some n := hn
        rw [hn2] at hkn
        cases hkn
        rw [hpar] at hkp
        exact (Option.some.inj hkp).symm
    · exact absurd h (by simp)

/-- The tokens `<a>`, `<b>`, `</b>`, `</a>`: the parse returns a tree, node 2 (`b`) has
the parent 1 (`a`), whose children hold it once. -/
theorem root_and_parent_links_witness :
    parse splitQuoted ["<a>".toList, "<b>".toList, "</b>".toList, "</a>".toList] =
      .ok { heap := [{ Node.new "document".toList with children := [1] },
                     { Node.new "a".toList with parent := some 0, children := [2] },
                     { Node.new "b".toList with parent := some 1 }],
            root := 0 } ∧
    ∃ (p : Nat) (pn : Node), (some 1 : Option Nat) = some p ∧
      [{ Node.new "document".toList with children := [1] },
       { Node.new "a".toList with parent := some 0, children := [2] },
       { Node.new "b".toList with parent := some 1 }][p]? = some pn ∧
      pn.children.count 2 = 1 := by
  refine ⟨rfl, ?_⟩
  obtain ⟨p, pn, h1, h2, h3, _⟩ :=
    (root_and_parent_links splitQuoted
      ["<a>".toList, "<b>".toList, "</b>".toList, "</a>".toList]
      { heap := [{ Node.new "document".toList with children := [1] },
                 { Node.new "a".toList with parent := some 0, children := [2] },
                 { Node.new "b".toList with parent := some 1 }],
        root := 0 } rfl).2.2 2 { Node.new "b".toList with parent := some 1 } rfl (by decide)
  exact ⟨p, pn, h1, h2, h3⟩

/-- C16. Stack/cursor invariant: after every token sequence that is processed without an
error exit, comments included, the cursor is a node and the stack, read from the top,
is the sequence of the tags of the cursor and of its successive ancestors, up to but
excluding the node without a parent; that node is the root and no other; so the stack is
empty exactly when the cursor is the root. -/
theorem stack_cursor_invariant (tokenize : Str → List Str) (tokens : List Str) (b : Builder)
    (h : run tokenize tokens Builder.init = .ok b) :
    ∃ c : Nat, b.node = some c ∧
      b.stack = ancestorTags b.heap b.heap.length c ∧
      (b.stack = [] ↔ c = b.root) ∧
      (∀ (i : Nat) (n : Node), b.heap[i]? = some n → (n.parent = none ↔ i = b.root)) := by
  have w := run_wellLinked tokenize tokens Builder.init b wellLinked_init h
  obtain ⟨c, hnode, hc, hst⟩ := w.cursor
  refine ⟨c, hnode, hst, ?_, fun i n hn => wellLinked_parent_none_iff w i n hn⟩
  obtain ⟨n, hn⟩ : ∃ n, b.heap[c]? = some n := ⟨b.heap[c], List.getElem?_eq_getElem hc⟩
  obtain ⟨L0, hL0⟩ : ∃ L0, b.heap.length = L0 + 1 := ⟨b.heap.length - 1, by omega⟩
  rw [hst, hL0]
  simp only [ancestorTags, hn]
  have hiff := wellLinked_parent_none_iff w c n hn
  cases hp : n.parent with
  | none =>
    simp only [true_iff]
    exact hiff.1 hp
  | some p =>
    simp only [false_iff, reduceCtorEq]
    intro hroot
    have := hiff.2 hroot
    rw [hp] at this
    exact absurd this (by simp)

/-- After `<a>`, `<b>`, `x` the cursor is node 2 and the stack is `b`, `a`. -/
theorem stack_cursor_invariant_witness :
    ∃ (b : Builder) (c : Nat),
      run splitQuoted ["<a>".toList, "<b>".toList, "x".toList] Builder.init = .ok b ∧
      b.node = some c ∧ b.stack = ["b".toList, "a".toList] ∧
      b.stack = ancestorTags b.heap b.heap.length c := by
  obtain ⟨c, h1, h2, _, _⟩ :=
    stack_cursor_invariant splitQuoted ["<a>".toList, "<b>".toList, "x".toList]
      { heap := [{ Node.new "document".toList with children := [1] },
                 { Node.new "a".toList with parent := some 0, children := [2] },
                 { Node.new "b".toList with parent := some 1, innerHTML := "x".toList }],
        stack := ["b".toList, "a".toList], root := 0, node := some 2,
        commentCompleted := true } rfl
  exact ⟨_, c, rfl, h1, rfl, h2⟩

/-- C17. No null cursor: no token sequence makes the loop or the parse end in the use of
a null pointer; after every token sequence that is processed without an error exit the
cursor is a node of the heap, the next iteration does not use a null pointer whatever
the token, and a closing tag that is matched finds the cursor at a node other than the
root and leaves it at a node. -/
theorem no_null_cursor (tokenize : Str → List Str) (tokens : List Str) :
    run tokenize tokens Builder.init ≠ .error .nullPointer ∧
    parse tokenize tokens ≠ .error .nullPointer ∧
    ∀ b : Builder, run tokenize tokens Builder.init = .ok b →
      (∃ (c : Nat) (n : Node), b.node = some c ∧ b.heap[c]? = some n) ∧
      (∀ t : Str, step tokenize b t ≠ .error .nullPointer) ∧
      (∀ (t : Str) (b1 : Builder), isClosingTag t = true → step tokenize b t = .ok b1 →
        b.node ≠ some b.root ∧
        ∃ (c1 : Nat) (n1 : Node), b1.node = some c1 ∧ b1.heap[c1]? = some n1) := by
  have hrun : run tokenize tokens Builder.init ≠ .error .nullPointer := by
    intro herr
    rcases run_error tokenize tokens Builder.init _ wellLinked_init herr with h | ⟨_, h⟩
    · exact absurd h (by simp)
    · exact absurd h (by simp)
  refine ⟨hrun, ?_, ?_⟩
  · intro herr
    unfold parse at herr
    cases hr : run tokenize tokens Builder.init with
    | error e =>
      rw [hr] at herr
      simp only [Except.error.injEq] at herr
      subst herr
      exact hrun hr
    | ok b =>
      rw [hr] at herr
      simp only [] at herr
      unfold finish at herr
      split at herr
      · exact absurd herr (by simp)
      · exact absurd herr (by simp)
  · intro b hb
    have w := run_wellLinked tokenize tokens Builder.init b wellLinked_init hb
    refine ⟨wellLinked_cursor_node w, ?_, ?_⟩
    · intro t herr
      rcases step_error tokenize b t _ w herr with h | ⟨_, h⟩
      · exact absurd h (by simp)
      · exact absurd h (by simp)
    · intro t b1 hclose hstep
      have w1 := step_wellLinked tokenize b b1 t w hstep
      refine ⟨?_, wellLinked_cursor_node w1⟩
      obtain ⟨c, n, hnode, hn⟩ := wellLinked_cursor_node w
      rw [step_closing tokenize b t hclose, closeTag_closed b t c n hnode hn] at hstep
      cases hname : getTagName t with
      | error e => rw [hname] at hstep; exact absurd hstep (by simp)
      | ok name =>
        rw [hname] at hstep
        simp only [] at hstep
        split at hstep
        · exact absurd hstep (by simp)
        · rename_i hstray
          have hne : b.stack ≠ [] := by
            intro hs
            apply hstray
            simp [hs]
          obtain ⟨hc0, _⟩ := wellLinked_close b c n w hnode hn hne
          rw [hnode, w.root_eq]
          intro heq
          exact hc0 (Option.some.inj heq)

/-- After `<a>` the cursor is node 1; the closing tag `</a>` moves it to the root, and a
second `</a>` is a stray tag, not a null pointer. -/
theorem no_null_cursor_witness :
    step splitQuoted afterOpenA "</a>".toList ≠ .error .nullPointer ∧
    parse splitQuoted ["<a>".toList, "</a>".toList, "</a>".toList] =
      .error (.strayTag "a".toList) :=
  ⟨((no_null_cursor splitQuoted ["<a>".toList]).2.2 afterOpenA rfl).2.1 "</a>".toList, rfl⟩

/-! ## The create command -/

theorem appendChild_new (heap : Heap) (c : Nat) (n m : Node) (hn : heap[c]? = some n) :
    appendChild (heap ++ [m]) (some c) heap.length =
      .ok (heap.set c { n with children := n.children ++ [heap.length] } ++
        [{ m with parent := some c }]) := by
  have hc := lt_length_of_getElem? hn
  unfold appendChild
  rw [deref_some (heap ++ [m]) c n (by rw [List.getElem?_append_left hc]; exact hn)]
  simp only [bind, Except.bind]
  rw [store_some _ c _ (by simp; omega)]
  simp only []
  rw [List.set_append_left _ _ hc]
  rw [deref_some _ heap.length m (by rw [List.getElem?_append_right (by simp)]; simp)]
  simp only []
  rw [store_some _ _ _ (by simp)]
  rw [List.set_append_right _ _ (by simp)]
  simp

theorem attach_frame (tree : Tree) (p : Nat) (pn m : Node) (hp : tree.heap[p]? = some pn) :
    (tree.attach p pn m).root = tree.root ∧
    (tree.attach p pn m).heap.length = tree.heap.length + 1 ∧
    (tree.attach p pn m).heap[tree.heap.length]? = some { m with parent := some p } ∧
    (tree.attach p pn m).heap[p]? =
      some { pn with children := pn.children ++ [tree.heap.length] } ∧
    (∀ i, i ≠ p → i < tree.heap.length → (tree.attach p pn m).heap[i]? = tree.heap[i]?) := by
  have hc := lt_length_of_getElem? hp
  refine ⟨rfl, by simp [Tree.attach], ?_, ?_, ?_⟩
  · simp only [Tree.attach]
    rw [List.getElem?_append_right (by simp)]
    simp
  · simp only [Tree.attach]
    rw [List.getElem?_append_left (by simp; omega), List.getElem?_set]
    simp [hc]
  · intro i hip hi
    simp only [Tree.attach]
    rw [List.getElem?_append_left (by simp; omega), List.getElem?_set]
    simp [Ne.symm hip]

theorem resolveCmd_create (env : Collaborators) (tree : Tree) (cmd spec : Str)
    (rest : List Str) (hcmd : env.tokenize cmd = "create".toList :: spec :: rest) :
    resolveCmd env tree cmd =
      if rest.head? = some "within".toList then
        createWithin env tree ("create".toList :: spec :: rest)
          (tree.heap ++ [env.createElement tree spec]) tree.heap.length
      else
        createDefault env tree (tree.heap ++ [env.createElement tree spec])
          tree.heap.length := by
  unfold resolveCmd
  rw [hcmd]
  have h0 : vectorAt ("create".toList :: spec :: rest) 0 = .ok "create".toList := by
    simp [vectorAt]
  have h1 : vectorAt ("create".toList :: spec :: rest) 1 = .ok spec := by
    simp [vectorAt]
  simp only [h0, h1, bind, Except.bind]
  rw [if_pos trivial, if_neg (by simp)]
  cases rest with
  | nil => simp
  | cons w ws =>
    by_cases hw : w = "within".toList
    · subst hw
      simp
    · simp [hw]

theorem parentSelectorOf_eq (word : Str) : parentSelectorOf word = .ok (stripQuotes word) := by
  unfold parentSelectorOf stripQuotes
  by_cases hq : isQuoted word = true
  · rw [if_pos hq, if_pos hq]
    have hlen : 1 ≤ word.length := by
      cases word with
      | nil => exact absurd hq (by simp [isQuoted])
      | cons c cs => simp
    rw [substr_ok word 1 _ hlen]
  · rw [if_neg hq, if_neg hq]

theorem createWithin_eq (env : Collaborators) (tree : Tree) (spec word : Str)
    (rest : List Str) (heap1 : Heap) (newNode : Nat) :
    createWithin env tree ("create".toList :: spec :: "within".toList :: word :: rest) heap1
        newNode =
      match env.matchSelector tree (stripQuotes word) with
      | none => .ok tree
      | some parent =>
        match appendChild heap1 (some parent) newNode with
        | .error e => .error e
        | .ok heap2 => .ok { tree with heap := heap2 } := by
  unfold createWithin
  rw [if_neg (by simp)]
  have h3 : vectorAt ("create".toList :: spec :: "within".toList :: word :: rest) 3 =
      .ok word := by
    simp [vectorAt]
  rw [h3]
  simp only [bind, Except.bind, parentSelectorOf_eq]
  cases env.matchSelector tree (stripQuotes word) with
  | none => rfl
  | some parent =>
    dsimp only
    cases appendChild heap1 (some parent) newNode with
    | error e => rfl
    | ok heap2 => rfl

/-- C13. Create-and-attach: when the words of the command are `create`, the spec, `within`
and a selector that, after the removal of enclosing quotes, resolves to a node `p` of the
tree, `resolveCmd` leaves the tree with the node built by `createElement` for the spec as
a new last record, whose parent is `p`; the children of `p` are the earlier children, in
their order, followed by the new node, and every other node is unchanged. -/
theorem create_within (env : Collaborators) (tree : Tree) (cmd spec word : Str)
    (rest : List Str) (p : Nat) (pn : Node)
    (hcmd : env.tokenize cmd = "create".toList :: spec :: "within".toList :: word :: rest)
    (hmatch : env.matchSelector tree (stripQuotes word) = some p)
    (hp : tree.heap[p]? = some pn) :
    ∃ tree1 : Tree, resolveCmd env tree cmd = .ok tree1 ∧
      tree1.root = tree.root ∧
      tree1.heap.length = tree.heap.length + 1 ∧
      tree1.heap[tree.heap.length]? =
        some { env.createElement tree spec with parent := some p } ∧
      tree1.heap[p]? = some { pn with children := pn.children ++ [tree.heap.length] } ∧
      (∀ i, i ≠ p → i < tree.heap.length → tree1.heap[i]? = tree.heap[i]?) := by
  refine ⟨tree.attach p pn (env.createElement tree spec), ?_,
    attach_frame tree p pn (env.createElement tree spec) hp⟩
  rw [resolveCmd_create env tree cmd spec _ hcmd,
    if_pos (show ("within".toList :: word :: rest).head? = some "within".toList from rfl),
    createWithin_eq, hmatch]
  simp only []
  rw [appendChild_new tree.heap p pn _ hp]
  rfl

/-- The command `create span#note within div` on the tree of `<div><p></p></div>`: the
`div` (node 1) gets the new node 3, a `span` with `id` `note`, after its child 2. -/
theorem create_within_witness :
    specCollaborators.tokenize "create span#note within div".toList =
      ["create".toList, "span#note".toList, "within".toList, "div".toList] ∧
    specCollaborators.matchSelector divTree (stripQuotes "div".toList) = some 1 ∧
    resolveCmd specCollaborators divTree "create span#note within div".toList =
      .ok { heap := [{ Node.new "document".toList with children := [1] },
                     { Node.new "div".toList with parent := some 0, children := [2, 3] },
                     { Node.new "p".toList with parent := some 1 },
                     { Node.new "span".toList with
                        parent := some 1, attributes := [("id".toList, "note".toList)] }],
            root := 0 } ∧
    ∃ tree1 : Tree,
      resolveCmd specCollaborators divTree "create span#note within div".toList = .ok tree1 ∧
      tree1.heap.length = 4 := by
  refine ⟨rfl, rfl, rfl, ?_⟩
  obtain ⟨tree1, h1, _, h3, _⟩ :=
    create_within specCollaborators divTree "create span#note within div".toList
      "span#note".toList "div".toList [] 1
      { Node.new "div".toList with parent := some 0, children := [2] } rfl rfl rfl
  exact ⟨tree1, h1, h3⟩

/-- C14. Create-with-missing-parent: when the words of the command are `create`, the spec,
`within` and a selector that resolves to no node, `resolveCmd` deletes the new node and
leaves the tree as it was: the same heap of nodes and the same root. -/
theorem create_within_missing_parent (env : Collaborators) (tree : Tree)
    (cmd spec word : Str) (rest : List Str)
    (hcmd : env.tokenize cmd = "create".toList :: spec :: "within".toList :: word :: rest)
    (hmatch : env.matchSelector tree (stripQuotes word) = none) :
    resolveCmd env tree cmd = .ok tree := by
  rw [resolveCmd_create env tree cmd spec _ hcmd,
    if_pos (show ("within".toList :: word :: rest).head? = some "within".toList from rfl),
    createWithin_eq, hmatch]

/-- The command `create span#note within nav` on the tree of `<div><p></p></div>`, which
has no `nav`: the tree is unchanged. -/
theorem create_within_missing_parent_witness :
    specCollaborators.matchSelector divTree (stripQuotes "nav".toList) = none ∧
    resolveCmd specCollaborators divTree "create span#note within nav".toList = .ok divTree :=
  ⟨rfl, create_within_missing_parent specCollaborators divTree
    "create span#note within nav".toList "span#note".toList "nav".toList [] rfl rfl⟩

theorem createDefault_eq (env : Collaborators) (tree : Tree) (m r : Node)
    (hdoc : env.matchSelector tree "@document".toList = some tree.root)
    (hr : tree.heap[tree.root]? = some r) :
    createDefault env tree (tree.heap ++ [m]) tree.heap.length =
      if r.children.isEmpty = true then .ok tree
      else
        match (match env.matchSelector tree "@body".toList with
               | some body => some body
               | none => r.children.head?) with
        | none => .error .outOfRange
        | some target =>
          match appendChild (tree.heap ++ [m]) (some target) tree.heap.length with
          | .error e => .error e
          | .ok heap2 => .ok { tree with heap := heap2 } := by
  have hroot := lt_length_of_getElem? hr
  unfold createDefault
  rw [hdoc]
  dsimp only
  rw [deref_some (tree.heap ++ [m]) tree.root r
    (by rw [List.getElem?_append_left hroot]; exact hr)]
  simp only [bind, Except.bind]
  by_cases hemp : r.children.isEmpty = true
  · rw [if_pos hemp, if_pos hemp]
    rfl
  · rw [if_neg hemp, if_neg hemp]
    cases hbody : env.matchSelector tree "@body".toList with
    | some body =>
      dsimp only [pure, Except.pure]
      cases appendChild (tree.heap ++ [m]) (some body) tree.heap.length with
      | error e => rfl
      | ok heap2 => rfl
    | none =>
      dsimp only
      cases hk : r.children with
      | nil => rfl
      | cons first others =>
        rw [List.getElem?_cons_zero]
        dsimp only [List.head?, pure, Except.pure]
        cases appendChild (tree.heap ++ [m]) (some first) tree.heap.length with
        | error e => rfl
        | ok heap2 => rfl

/-- C19. Default attachment: when the words of the command are `create` and a spec, not
followed by `within`, and `@document` resolves to the root (record `r`): if the root has
no children the new node is deleted and the tree is unchanged; otherwise the new node
becomes the last record of the heap and the last child of the target, which is the node
that `@body` resolves to when there is one and else the first child of the root; the
target keeps its earlier children in their order and every other node is unchanged. -/
theorem create_default (env : Collaborators) (tree : Tree) (cmd spec : Str)
    (rest : List Str) (r : Node)
    (hcmd : env.tokenize cmd = "create".toList :: spec :: rest)
    (hnot : rest.head? ≠ some "within".toList)
    (hdoc : env.matchSelector tree "@document".toList = some tree.root)
    (hr : tree.heap[tree.root]? = some r) :
    (r.children = [] → resolveCmd env tree cmd = .ok tree) ∧
    (∀ (target : Nat) (tn : Node), r.children ≠ [] →
      (env.matchSelector tree "@body".toList = some target ∨
        (env.matchSelector tree "@body".toList = none ∧ r.children.head? = some target)) →
      tree.heap[target]? = some tn →
      ∃ tree1 : Tree, resolveCmd env tree cmd = .ok tree1 ∧
        tree1.root = tree.root ∧
        tree1.heap.length = tree.heap.length + 1 ∧
        tree1.heap[tree.heap.length]? =
          some { env.createElement tree spec with parent := some target } ∧
        tree1.heap[target]? =
          some { tn with children := tn.children ++ [tree.heap.length] } ∧
        (∀ i, i ≠ target → i < tree.heap.length → tree1.heap[i]? = tree.heap[i]?)) := by
  have hres : resolveCmd env tree cmd =
      createDefault env tree (tree.heap ++ [env.createElement tree spec]) tree.heap.length := by
    rw [resolveCmd_create env tree cmd spec rest hcmd, if_neg hnot]
  rw [hres, createDefault_eq env tree _ r hdoc hr]
  constructor
  · intro hk
    rw [if_pos (by rw [hk]; rfl)]
  · intro target tn hk htarget htn
    have hemp : ¬ r.children.isEmpty = true := by
      intro h
      exact hk (List.isEmpty_iff.1 h)
    have hsel : (match env.matchSelector tree "@body".toList with
        | some body => some body
        | none => r.children.head?) = some target := by
      rcases htarget with hb | ⟨hb, hf⟩
      · rw [hb]
      · rw [hb]
        exact hf
    refine ⟨tree.attach target tn (env.createElement tree spec), ?_,
      attach_frame tree target tn (env.createElement tree spec) htn⟩
    rw [if_neg hemp, hsel]
    dsimp only
    rw [appendChild_new tree.heap target tn _ htn]
    rfl

/-- The command `create span.a.b` on the tree of `<div><p></p></div>`, which has no `body`:
the first child of the root, the `div` (node 1), gets the new node 3 after its child 2;
on a tree that is only the root the command changes nothing. -/
theorem create_default_witness :
    specCollaborators.matchSelector divTree "@body".toList = none ∧
    resolveCmd specCollaborators divTree "create span.a.b".toList =
      .ok { heap := [{ Node.new "document".toList with children := [1] },
                     { Node.new "div".toList with parent := some 0, children := [2, 3] },
                     { Node.new "p".toList with parent := some 1 },
                     { Node.new "span".toList with
                        parent := some 1,
                        attributes := [("class".toList, "a b".toList)] }],
            root := 0 } ∧
    resolveCmd specCollaborators { heap := [Node.new "document".toList], root := 0 }
      "create span".toList = .ok { heap := [Node.new "document".toList], root := 0 } := by
  refine ⟨rfl, rfl, ?_⟩
  exact (create_default specCollaborators { heap := [Node.new "document".toList], root := 0 }
    "create span".toList "span".toList [] (Node.new "document".toList) rfl (by decide) rfl
    rfl).1 rfl

end dom
